import Mathlib

/-!
CmdColor: a shallow embedding of `include/CmdColor.hpp`

The header builds ANSI true-colour strings.  The embedding keeps the source's
function names and follows its control flow statement by statement.

Conventions of the embedding

* `Text` stands for `std::string` / `std::string_view`: a sequence of single-byte
  positions, one `Char` per position.
* `uint8_t` is `Fin 256`; `size_t` values are natural numbers and the only
  subtraction that can wrap (`size_sub`) wraps modulo `2^64`.
* `Dbl` stands for `double`: a finite value, one of the two infinities, or NaN.
  Finite values are carried as exact rationals, so rounding of finite results is
  not modelled; zero divisors, NaN and the infinities are.  Where a property depends on
  the rounding, the rounded operations `Dbl.radd`, `Dbl.rmul`, `Dbl.rdiv` are used
  (`get_rainbow_color_rounded`), for every rounding within the error bound of a
  `double`.
* C++ calls that can fail return `Except Err _`: a failed `assert`, a
  `std::out_of_range` thrown by `substr`, or a floating-to-integer conversion
  whose truncated value does not fit the destination type (undefined behaviour).
* `std::sin` and `M_PI` come from `<cmath>` and are parameters (`Libm`); a theorem that
  needs more of them than their types says so through `Libm.sin_bounded` or
  `Libm.faithful`.
-/

namespace cmd_color

/-! ## Data model -/

/-- A byte string (`std::string`, `std::string_view`): one `Char` per position. -/
abbrev Text := List Char

/-- The 8-bit unsigned channel type. -/
abbrev uint8_t := Fin 256

/-- The ways a call of the embedded C++ can fail to return a value. -/
inductive Err where
  /-- An `assert` failed (only in builds without `NDEBUG`). -/
  | assertion_failed
  /-- `substr` was called with a start position past the end (`std::out_of_range`). -/
  | out_of_range
  /-- A `double` was converted to `uint8_t` although its truncated value is not
  representable there (or it was NaN or infinite): undefined behaviour. -/
  | undefined_conversion
  deriving DecidableEq, Repr

/-- The escape byte `\033`. -/
def ESC : Char := Char.ofNat 27

/-- The string `"\033[0m"` that restores the default rendering. -/
def RESET : Text := [ESC, '[', '0', 'm']

/-- The call `std::to_string(int)` on a non-negative value: its decimal digits. -/
def to_string (n : Nat) : Text := Nat.toDigits 10 n

/-- The struct `Color`: three 8-bit channels. -/
structure Color where
  r : uint8_t
  g : uint8_t
  b : uint8_t
  deriving DecidableEq, Repr

/-- The member `Color::to_ansi_fg`:
`"\033[38;2;" + to_string(r) + ";" + to_string(g) + ";" + to_string(b) + "m"`. -/
def Color.to_ansi_fg (c : Color) : Text :=
  [ESC, '[', '3', '8', ';', '2', ';'] ++ to_string c.r.val ++ [';'] ++
    to_string c.g.val ++ [';'] ++ to_string c.b.val ++ ['m']

/-- The member `Color::to_ansi_bg`:
`"\033[48;2;" + to_string(r) + ";" + to_string(g) + ";" + to_string(b) + "m"`. -/
def Color.to_ansi_bg (c : Color) : Text :=
  [ESC, '[', '4', '8', ';', '2', ';'] ++ to_string c.r.val ++ [';'] ++
    to_string c.g.val ++ [';'] ++ to_string c.b.val ++ ['m']

namespace Colors

def RED : Color := ⟨255, 0, 0⟩
def GREEN : Color := ⟨0, 255, 0⟩
def BLUE : Color := ⟨0, 0, 255⟩
def YELLOW : Color := ⟨255, 255, 0⟩
def CYAN : Color := ⟨0, 255, 255⟩
def MAGENTA : Color := ⟨255, 0, 255⟩
def WHITE : Color := ⟨255, 255, 255⟩
def BLACK : Color := ⟨0, 0, 0⟩
def ORANGE : Color := ⟨255, 165, 0⟩
def PURPLE : Color := ⟨128, 0, 128⟩

end Colors

/-- The value a string of decimal digits denotes, read left to right. -/
def decimal_value (s : Text) : Nat :=
  s.foldl (fun acc d => 10 * acc + (d.toNat - 48)) 0

/-- A text is the plain decimal numeral of `n`: it is non-empty, every character is
one of `0`..`9` (so no sign), it has no leading zero unless it is `"0"` itself
(so no padding), and it denotes `n`. -/
def is_plain_decimal (s : Text) (n : Nat) : Prop :=
  s ≠ [] ∧ (∀ d ∈ s, '0' ≤ d ∧ d ≤ '9') ∧ (s.head? = some '0' → s = ['0']) ∧
    decimal_value s = n

instance (s : Text) (n : Nat) : Decidable (is_plain_decimal s n) := by
  unfold is_plain_decimal; infer_instance

/-! ## The `double` type -/

/-- A value of type `double`: finite (carried exactly), an infinity, or NaN. -/
inductive Dbl where
  | fin (q : ℚ)
  | pos_inf
  | neg_inf
  | nan
  deriving DecidableEq

namespace Dbl

/-- Conversion of an unsigned integer (`size_t`) to `double`. -/
def ofNat (n : Nat) : Dbl := fin (n : ℚ)

/-- Conversion of an `int` to `double`. -/
def ofInt (z : Int) : Dbl := fin (z : ℚ)

/-- The comparison `a < b`: false as soon as an operand is NaN. -/
def lt : Dbl → Dbl → Bool
  | fin a, fin b => decide (a < b)
  | fin _, pos_inf => true
  | neg_inf, fin _ => true
  | neg_inf, pos_inf => true
  | _, _ => false

/-- The sum `a + b`. -/
def add : Dbl → Dbl → Dbl
  | fin a, fin b => fin (a + b)
  | nan, _ => nan
  | _, nan => nan
  | pos_inf, neg_inf => nan
  | neg_inf, pos_inf => nan
  | pos_inf, _ => pos_inf
  | _, pos_inf => pos_inf
  | neg_inf, _ => neg_inf
  | _, neg_inf => neg_inf

/-- An infinity with the sign of `s`, and NaN when `s` is zero (`inf * 0`). -/
def inf_signed (s : ℚ) : Dbl :=
  if 0 < s then pos_inf else if s < 0 then neg_inf else nan

/-- The product `a * b`. -/
def mul : Dbl → Dbl → Dbl
  | fin a, fin b => fin (a * b)
  | nan, _ => nan
  | _, nan => nan
  | pos_inf, fin b => inf_signed b
  | fin a, pos_inf => inf_signed a
  | neg_inf, fin b => inf_signed (-b)
  | fin a, neg_inf => inf_signed (-a)
  | pos_inf, pos_inf => pos_inf
  | neg_inf, neg_inf => pos_inf
  | pos_inf, neg_inf => neg_inf
  | neg_inf, pos_inf => neg_inf

/-- The quotient `a / b`.  A zero divisor gives NaN for `0 / 0` and an infinity
otherwise; the divisor zero is taken as `+0.0`, which is what the conversion of an
unsigned integer gives. -/
def div : Dbl → Dbl → Dbl
  | fin a, fin b =>
      if b = 0 then (if a = 0 then nan else if 0 < a then pos_inf else neg_inf)
      else fin (a / b)
  | nan, _ => nan
  | _, nan => nan
  | fin _, pos_inf => fin 0
  | fin _, neg_inf => fin 0
  | pos_inf, fin b => if 0 ≤ b then pos_inf else neg_inf
  | neg_inf, fin b => if 0 ≤ b then neg_inf else pos_inf
  | pos_inf, pos_inf => nan
  | pos_inf, neg_inf => nan
  | neg_inf, pos_inf => nan
  | neg_inf, neg_inf => nan

instance : Add Dbl := ⟨add⟩
instance : Mul Dbl := ⟨mul⟩
instance : Div Dbl := ⟨div⟩

/-- The conversion `static_cast<uint8_t>(x)`: the fractional part is discarded
(truncation toward zero); the behaviour is undefined when the truncated value is not
in `0..255`, and for NaN and the infinities. -/
def to_uint8 : Dbl → Except Err uint8_t
  | fin q =>
      if h : 0 ≤ Int.tdiv q.num q.den ∧ Int.tdiv q.num q.den < 256 then
        .ok ⟨(Int.tdiv q.num q.den).toNat, by omega⟩
      else .error .undefined_conversion
  | _ => .error .undefined_conversion

end Dbl

/-- The call `std::clamp(v, lo, hi)`: `(v < lo) ? lo : (hi < v) ? hi : v`. -/
def clamp (v lo hi : Dbl) : Dbl :=
  if v.lt lo then lo else if hi.lt v then hi else v

/-- What the header takes from `<cmath>`: the function `std::sin` and the constant
`M_PI`.  Neither is code of this repository, so both are parameters. -/
structure Libm where
  sin : Dbl → Dbl
  M_PI : Dbl

/-- Bhaskara's rational approximation of the sine on `[0, p]`, `p` standing for π. -/
def bhaskara (p x : ℚ) : ℚ :=
  16 * x * (p - x) / (5 * p * p - 4 * x * (p - x))

/-- An executable instance of `Libm`, for running the embedding on concrete inputs:
`M_PI` is the `double` nearest to π and `sin` is Bhaskara's approximation after
reduction of the argument to one period. -/
def libm_approx : Libm where
  M_PI := .fin (884279719003555 / 281474976710656)
  sin := fun x =>
    match x with
    | .fin q =>
        let p : ℚ := 884279719003555 / 281474976710656
        let y : ℚ := q - 2 * p * ((Rat.floor (q / (2 * p)) : Int) : ℚ)
        if y ≤ p then .fin (bhaskara p y) else .fin (-(bhaskara p (y - p)))
    | _ => .nan

/-! ## Colour arithmetic -/

/-- The function `get_rainbow_color`: three sine waves a third of a period apart,
each scaled to `sin(x) * 127 + 128` and converted to `uint8_t`. -/
def get_rainbow_color (env : Libm) (phase : Dbl) : Except Err Color := do
  let r ← (env.sin phase * Dbl.fin 127 + Dbl.fin 128).to_uint8
  let g ← (env.sin (phase + Dbl.fin 2 * env.M_PI / Dbl.fin 3) * Dbl.fin 127 + Dbl.fin 128).to_uint8
  let b ← (env.sin (phase + Dbl.fin 4 * env.M_PI / Dbl.fin 3) * Dbl.fin 127 + Dbl.fin 128).to_uint8
  pure ⟨r, g, b⟩

/-- One channel of `lerp_color`: `static_cast<uint8_t>(from + (to - from) * t)`, the
channels promoted to `int` before the subtraction. -/
def lerp_channel (from_ to_ : uint8_t) (t : Dbl) : Except Err uint8_t :=
  (Dbl.ofInt (from_.val : Int) + Dbl.ofInt ((to_.val : Int) - (from_.val : Int)) * t).to_uint8

/-- The function `lerp_color`: `t` is clamped to `[0, 1]`, then each channel is
`from + (to - from) * t` converted to `uint8_t`. -/
def lerp_color (from_ to_ : Color) (t : Dbl) : Except Err Color := do
  let t := clamp t (Dbl.fin 0) (Dbl.fin 1)
  let r ← lerp_channel from_.r to_.r t
  let g ← lerp_channel from_.g to_.g t
  let b ← lerp_channel from_.b to_.b t
  pure ⟨r, g, b⟩

/-! ## Whole-string colouring -/

/-- The function `colorize`: `color.to_ansi_fg() + std::string(text) + "\033[0m"`. -/
def colorize (text : Text) (color : Color) : Text :=
  color.to_ansi_fg ++ text ++ RESET

/-- The function `colorize_bg`:
`fg.to_ansi_fg() + bg.to_ansi_bg() + std::string(text) + "\033[0m"`. -/
def colorize_bg (text : Text) (fg bg : Color) : Text :=
  fg.to_ansi_fg ++ bg.to_ansi_bg ++ text ++ RESET

/-! ## Per-character colouring -/

/-- The constant `char_diff` of `rainbow`: the phase step from one character to the
next, `0.3`. -/
def char_diff : Dbl := .fin (3 / 10)

/-- The `for` loop of `rainbow`, entered at index `i` with `rest` the characters
`text[i]`, `text[i+1]`, ... still to visit and `result` the string built so far. -/
def rainbow_loop (env : Libm) (start_phase : Dbl) : Nat → Text → Text → Except Err Text
  | _, [], result => pure result
  | i, ch :: rest, result => do
      let color ← get_rainbow_color env (start_phase + Dbl.ofNat i * char_diff)
      rainbow_loop env start_phase (i + 1) rest (result ++ color.to_ansi_fg ++ [ch])

/-- The function `rainbow`: every character preceded by the foreground code of its own
rainbow colour, then one reset code.  (The source's default `start_phase` is `0.0`.) -/
def rainbow (env : Libm) (text : Text) (start_phase : Dbl) : Except Err Text := do
  let result ← rainbow_loop env start_phase 0 text []
  pure (result ++ RESET)

/-- Subtraction of two `size_t` values (both below `2^64`): it wraps modulo `2^64`
when the second exceeds the first. -/
def size_sub (a b : Nat) : Nat :=
  if b ≤ a then a - b else 2 ^ 64 - (b - a)

/-- The `for` loop of `gradient`, entered at index `i` with `rest` the characters
`text[i]`, `text[i+1]`, ... still to visit; `size` is `text.size()`. -/
def gradient_loop (size : Nat) (from_ to_ : Color) : Nat → Text → Text → Except Err Text
  | _, [], result => pure result
  | i, ch :: rest, result => do
      let t := Dbl.ofNat i / Dbl.ofNat (size_sub size 1)
      let color ← lerp_color from_ to_ t
      gradient_loop size from_ to_ (i + 1) rest (result ++ color.to_ansi_fg ++ [ch])

/-- The function `gradient`: empty text gives the empty string; otherwise character `i`
is preceded by the foreground code of `lerp_color(from, to, i / (size - 1))`, and one
reset code ends the string. -/
def gradient (text : Text) (from_ to_ : Color) : Except Err Text :=
  if text.isEmpty then pure []
  else do
    let result ← gradient_loop text.length from_ to_ 0 text []
    pure (result ++ RESET)

/-! ## Colouring parts of a text -/

/-- The member `substr(pos, count)` of `std::string_view`: it throws
`std::out_of_range` when `pos > size()`, and otherwise gives the characters from `pos`
on, at most `count` of them. -/
def substr (text : Text) (pos count : Nat) : Except Err Text :=
  if pos > text.length then .error .out_of_range
  else .ok ((text.drop pos).take count)

/-- The member `substr(pos)`, whose count defaults to `npos`: all characters from `pos`
on. -/
def substr_from (text : Text) (pos : Nat) : Except Err Text :=
  if pos > text.length then .error .out_of_range
  else .ok (text.drop pos)

/-- The struct `ColorRange`. -/
structure ColorRange where
  start : Nat
  end_ : Nat
  color : Color
  deriving DecidableEq, Repr

/-- The two assertions `colorize_ranges` makes on each range. -/
def range_ok (text : Text) (range : ColorRange) : Prop :=
  range.start ≤ range.end_ ∧ range.end_ ≤ text.length

instance (text : Text) (range : ColorRange) : Decidable (range_ok text range) := by
  unfold range_ok; infer_instance

/-- The assertion loop at the head of `colorize_ranges`, compiled in unless `NDEBUG`
is defined. -/
def check_ranges (text : Text) : List ColorRange → Except Err Unit
  | [] => pure ()
  | range :: rest =>
      if range_ok text range then check_ranges text rest
      else .error .assertion_failed

/-- The main loop of `colorize_ranges`: `pos` is the cursor and `result` the string
built so far; it returns both after the last range. -/
def colorize_ranges_loop (text : Text) :
    List ColorRange → Nat → Text → Except Err (Text × Nat)
  | [], pos, result => pure (result, pos)
  | range :: rest, pos, result => do
      let result ←
        (if pos < range.start then do
          let before ← substr text pos (size_sub range.start pos)
          pure (result ++ before)
        else pure result)
      let result := result ++ range.color.to_ansi_fg
      let inside ← substr text range.start (size_sub range.end_ range.start)
      let result := result ++ inside ++ RESET
      colorize_ranges_loop text rest range.end_ result

/-- The function `colorize_ranges`.  `ndebug` says whether the build defines `NDEBUG`
(assertions compiled out). -/
def colorize_ranges (ndebug : Bool) (text : Text) (ranges : List ColorRange) :
    Except Err Text := do
  if !ndebug then check_ranges text ranges
  let (result, pos) ← colorize_ranges_loop text ranges 0 []
  if pos < text.length then do
    let tail ← substr_from text pos
    pure (result ++ tail)
  else pure result

/-- The function `rainbow_range`: the text itself when the range is empty or out of
bounds, otherwise `substr(0, start) + rainbow(substr(start, end - start)) + substr(end)`. -/
def rainbow_range (env : Libm) (text : Text) (start end_ : Nat) : Except Err Text :=
  if start ≥ text.length ∨ end_ > text.length ∨ start ≥ end_ then pure text
  else do
    let head ← substr text 0 start
    let slice ← substr text start (size_sub end_ start)
    let middle ← rainbow env slice (Dbl.fin 0)
    let tail ← substr_from text end_
    pure (head ++ middle ++ tail)

/-! ## Output seen as pieces -/

/-- A stretch of an output string: characters copied from the input text, or an escape
code inserted by the colouring function. -/
inductive Piece where
  | plain (s : Text)
  | code (s : Text)
  deriving DecidableEq, Repr

/-- The characters of a piece. -/
def Piece.chars : Piece → Text
  | .plain s => s
  | .code s => s

/-- The string a list of pieces spells out. -/
def render (ps : List Piece) : Text := ps.flatMap Piece.chars

/-- The string left when the inserted codes are removed. -/
def strip_codes : List Piece → Text
  | [] => []
  | .plain s :: ps => s ++ strip_codes ps
  | .code _ :: ps => strip_codes ps

/-- The inserted codes, in order. -/
def inserted_codes : List Piece → List Text
  | [] => []
  | .plain _ :: ps => inserted_codes ps
  | .code s :: ps => s :: inserted_codes ps

/-- Ranges sorted ascending without overlap, from cursor `pos` on: each range starts at
or after the end of the range before it (`pos` for the first). -/
def sorted_from : Nat → List ColorRange → Prop
  | _, [] => True
  | pos, range :: rest => pos ≤ range.start ∧ sorted_from range.end_ rest

instance sorted_from_decidable : ∀ (pos : Nat) (ranges : List ColorRange),
    Decidable (sorted_from pos ranges)
  | _, [] => isTrue trivial
  | pos, range :: rest =>
      have := sorted_from_decidable range.end_ rest
      inferInstanceAs (Decidable (pos ≤ range.start ∧ sorted_from range.end_ rest))

/-- The range list of `demo_colors` in `examples/main.cpp`. -/
def demo_ranges : List ColorRange :=
  [⟨0, 5, Colors.RED⟩, ⟨6, 11, Colors.GREEN⟩, ⟨12, 17, Colors.BLUE⟩]

/-! ## What is assumed of `<cmath>` -/

/-- The value of the constant `M_PI`: the `double` nearest to π,
`3.141592653589793115997963...`, which lies below π. -/
def M_PI_value : ℚ := 884279719003555 / 281474976710656

/-- The range of `std::sin`: on every finite argument the result is finite and lies in
`[-1, 1]`. -/
def Libm.sin_bounded (env : Libm) : Prop :=
  ∀ x : ℚ, ∃ s : ℚ, env.sin (Dbl.fin x) = Dbl.fin s ∧ -1 ≤ s ∧ s ≤ 1

/-- A faithful `<cmath>`: `M_PI` is the `double` nearest to π, and on every finite
argument `std::sin` returns a finite value whose error, relative to the mathematical
sine of the argument, is at most one part in a thousand (library implementations stay
within a few units in the last place, far below this). -/
def Libm.faithful (env : Libm) : Prop :=
  env.M_PI = Dbl.fin M_PI_value ∧
    ∀ x : ℚ, ∃ s : ℚ, env.sin (Dbl.fin x) = Dbl.fin s ∧
      |(s : ℝ) - Real.sin (x : ℝ)| ≤ 1 / 1000 * |Real.sin (x : ℝ)|

/-! ## Rounding of arithmetic results -/

/-- Rounding of a rational to the nearest whole number, ties to the even one. -/
def round_half_even (r : ℚ) : Int :=
  if r - (⌊r⌋ : ℚ) < 1 / 2 then ⌊r⌋
  else if 1 / 2 < r - (⌊r⌋ : ℚ) then ⌊r⌋ + 1
  else if ⌊r⌋ % 2 = 0 then ⌊r⌋ else ⌊r⌋ + 1

/-- Round-to-nearest, ties-to-even, to IEEE binary64, for values below the overflow
threshold `2^1024`: the value is rounded to a whole multiple of `2^(e-52)`, where `e` is
its binary exponent, not taken below `-1022` (the subnormal range). -/
def round64 (x : ℚ) : ℚ :=
  if x = 0 then 0
  else
    (round_half_even (x / (2 : ℚ) ^ (max (Int.log 2 |x|) (-1022) - 52)) : ℚ) *
      (2 : ℚ) ^ (max (Int.log 2 |x|) (-1022) - 52)

/-- What the theorems use of the rounding of an arithmetic result to a `double`: below
the overflow range the result is within half a unit in the last place of the exact
value, that is within `|x| / 2^53`, or within `2^-1075` in the subnormal range. -/
def rounds_like_double (rnd : ℚ → ℚ) : Prop :=
  ∀ x : ℚ, |x| ≤ 2 ^ 1023 → |rnd x - x| ≤ |x| / 2 ^ 53 + 1 / 2 ^ 1075

/-- From `2^47` on, every `double` is a whole multiple of `2^-5`: so is the rounding
of every value of that size. -/
def rounds_to_thirty_seconds (rnd : ℚ → ℚ) : Prop :=
  ∀ x : ℚ, 2 ^ 47 ≤ |x| → |x| ≤ 2 ^ 1023 → ∃ n : Int, rnd x = (n : ℚ) / 32

namespace Dbl

/-- The rounding of an arithmetic result: a finite value is rounded by `rnd`, an
infinity or NaN is kept. -/
def rounded (rnd : ℚ → ℚ) : Dbl → Dbl
  | fin q => fin (rnd q)
  | d => d

/-- The sum `a + b` as the machine computes it: the exact sum, rounded. -/
def radd (rnd : ℚ → ℚ) (a b : Dbl) : Dbl := rounded rnd (a + b)

/-- The product `a * b` as the machine computes it: the exact product, rounded. -/
def rmul (rnd : ℚ → ℚ) (a b : Dbl) : Dbl := rounded rnd (a * b)

/-- The quotient `a / b` as the machine computes it: the exact quotient, rounded. -/
def rdiv (rnd : ℚ → ℚ) (a b : Dbl) : Dbl := rounded rnd (a / b)

end Dbl

/-- The number π to fifty decimal places. -/
def pi_50 : ℚ := 314159265358979323846264338327950288419716939937510 / 10 ^ 50

/-- The Taylor polynomial of the sine of degree 49. -/
def taylor_sin (y : ℚ) : ℚ :=
  (List.range 25).foldl
    (fun acc k => acc + (-1) ^ k * y ^ (2 * k + 1) / ((2 * k + 1).factorial : ℚ)) 0

/-- A second executable instance of `Libm`, for running the embedding next to the
program: the argument is reduced by whole periods with `pi_50`, the Taylor polynomial is
evaluated exactly and the result is rounded to a `double`.  No theorem depends on it. -/
def libm_taylor : Libm where
  M_PI := .fin M_PI_value
  sin := fun d =>
    match d with
    | .fin x =>
        .fin (round64 (taylor_sin (x - 2 * pi_50 * (round_half_even (x / (2 * pi_50)) : ℚ))))
    | _ => .nan

/-- The function `get_rainbow_color` with every arithmetic result rounded by `rnd`:
the same expressions as in `get_rainbow_color`, which is the case of a rounding that
changes nothing. -/
def get_rainbow_color_rounded (env : Libm) (rnd : ℚ → ℚ) (phase : Dbl) : Except Err Color := do
  let r ← (Dbl.radd rnd (Dbl.rmul rnd (env.sin phase) (Dbl.fin 127)) (Dbl.fin 128)).to_uint8
  let g ← (Dbl.radd rnd (Dbl.rmul rnd
    (env.sin (Dbl.radd rnd phase
      (Dbl.rdiv rnd (Dbl.rmul rnd (Dbl.fin 2) env.M_PI) (Dbl.fin 3))))
    (Dbl.fin 127)) (Dbl.fin 128)).to_uint8
  let b ← (Dbl.radd rnd (Dbl.rmul rnd
    (env.sin (Dbl.radd rnd phase
      (Dbl.rdiv rnd (Dbl.rmul rnd (Dbl.fin 4) env.M_PI) (Dbl.fin 3))))
    (Dbl.fin 127)) (Dbl.fin 128)).to_uint8
  pure ⟨r, g, b⟩

/-- The expression `phase + 2 * M_PI` as the machine computes it. -/
def phase_plus_period (env : Libm) (rnd : ℚ → ℚ) (phase : Dbl) : Dbl :=
  Dbl.radd rnd phase (Dbl.rmul rnd (Dbl.fin 2) env.M_PI)

/-- A phase just below `2^47` (it is the `double` `2^47 - 211/64`), about `0.09` below
a whole multiple of `2π`. -/
def large_phase : ℚ := 9007199254740781 / 64

/-! ## The output of `rainbow`, position by position -/

/-- The string `rainbow` is specified to return: for `i = 0 .. n-1` in order, the
foreground code of `get_rainbow_color(start_phase + 0.3 * i)` followed by the `i`-th
character, then one reset code.  The colours are computed first, from the positions
alone; the call fails where the first of them fails. -/
def rainbow_spec (env : Libm) (text : Text) (start_phase : Dbl) : Except Err Text := do
  let colors ← (List.range text.length).mapM
    (fun i => get_rainbow_color env (start_phase + Dbl.fin (3 / 10) * Dbl.ofNat i))
  pure ((List.zipWith (fun c ch => c.to_ansi_fg ++ [ch]) colors text).flatten ++ RESET)

/-! ## The gradient animation loop -/

namespace Dbl

/-- The negation `-a`. -/
def neg : Dbl → Dbl
  | fin q => fin (-q)
  | pos_inf => neg_inf
  | neg_inf => pos_inf
  | nan => nan

/-- The comparison `a <= b`: false as soon as an operand is NaN. -/
def le : Dbl → Dbl → Bool
  | fin a, fin b => decide (a ≤ b)
  | neg_inf, nan => false
  | neg_inf, _ => true
  | fin _, pos_inf => true
  | pos_inf, pos_inf => true
  | _, _ => false

end Dbl

/-- The two loop variables of `animate_gradient`. -/
structure GradientState where
  t : Dbl
  direction : Dbl
  deriving DecidableEq

/-- The variables of `animate_gradient` on entry to the loop: `t = 0.0`,
`direction = 0.01`. -/
def animate_gradient_init : GradientState :=
  ⟨Dbl.fin 0, Dbl.fin (1 / 100)⟩

/-- The update one iteration of `animate_gradient` makes:
`t += direction; if (t >= 1.0 || t <= 0.0) direction = -direction;`. -/
def animate_gradient_step (s : GradientState) : GradientState :=
  let t := s.t + s.direction
  let direction := if (Dbl.fin 1).le t || t.le (Dbl.fin 0) then s.direction.neg else s.direction
  ⟨t, direction⟩

/-- The loop variables of `animate_gradient` after `n` iterations. -/
def animate_gradient_run : Nat → GradientState
  | 0 => animate_gradient_init
  | n + 1 => animate_gradient_step (animate_gradient_run n)

/-! ## Theorems: colour codes and whole-string colouring -/

/-- Every 8-bit value is printed by `to_string` as its plain decimal numeral. -/
theorem to_string_plain_decimal (x : uint8_t) : is_plain_decimal (to_string x.val) x.val := by
  revert x
  set_option maxRecDepth 100000 in decide

/-- C1: for every text and colour, `colorize` is the colour's foreground code, then the
text unchanged, then the reset code; so it starts with the foreground code and ends
with the reset code. -/
theorem colorize_layout (text : Text) (C : Color) :
    colorize text C = C.to_ansi_fg ++ text ++ RESET ∧
      C.to_ansi_fg <+: colorize text C ∧
      RESET <:+ colorize text C ∧
      RESET = [Char.ofNat 27, '[', '0', 'm'] := by
  refine ⟨rfl, ?_, ?_, rfl⟩
  · exact ⟨text ++ RESET, by simp [colorize]⟩
  · exact ⟨C.to_ansi_fg ++ text, rfl⟩

/-- C2: for every colour `(r, g, b)` the foreground code is `ESC[38;2;R;G;Bm`, where
`R`, `G`, `B` are the plain decimal numerals (no padding, no sign) of the channels. -/
theorem to_ansi_fg_format (c : Color) :
    ∃ R G B : Text,
      c.to_ansi_fg = [Char.ofNat 27, '[', '3', '8', ';', '2', ';'] ++ R ++ [';'] ++ G ++ [';']
        ++ B ++ ['m'] ∧
      is_plain_decimal R c.r.val ∧ is_plain_decimal G c.g.val ∧ is_plain_decimal B c.b.val :=
  ⟨to_string c.r.val, to_string c.g.val, to_string c.b.val, rfl,
    to_string_plain_decimal c.r, to_string_plain_decimal c.g, to_string_plain_decimal c.b⟩

/-! ## Theorems: `lerp_color` -/

/-- Converting an 8-bit value held in a `double` back to `uint8_t` gives the value. -/
theorem to_uint8_natCast (x : uint8_t) : (Dbl.fin (x.val : ℚ)).to_uint8 = .ok x := by
  have hx := x.isLt
  simp only [Dbl.to_uint8, Rat.num_natCast, Rat.den_natCast, Nat.cast_one, Int.tdiv_one]
  rw [dif_pos ⟨by omega, by omega⟩]
  simp

theorem clamp_zero : clamp (Dbl.fin 0) (Dbl.fin 0) (Dbl.fin 1) = Dbl.fin 0 := by
  simp [clamp, Dbl.lt]

theorem clamp_one : clamp (Dbl.fin 1) (Dbl.fin 0) (Dbl.fin 1) = Dbl.fin 1 := by
  simp [clamp, Dbl.lt]

theorem clamp_idem (t : Dbl) :
    clamp (clamp t (Dbl.fin 0) (Dbl.fin 1)) (Dbl.fin 0) (Dbl.fin 1) =
      clamp t (Dbl.fin 0) (Dbl.fin 1) := by
  cases t with
  | fin q =>
      by_cases h0 : q < 0
      · simp [clamp, Dbl.lt, h0]
      · by_cases h1 : (1 : ℚ) < q
        · simp [clamp, Dbl.lt, h0, h1]
        · simp [clamp, Dbl.lt, h0, h1]
  | pos_inf => simp [clamp, Dbl.lt]
  | neg_inf => simp [clamp, Dbl.lt]
  | nan => simp [clamp, Dbl.lt]

theorem clamp_of_lt_zero (t : Dbl) (h : t.lt (Dbl.fin 0) = true) :
    clamp t (Dbl.fin 0) (Dbl.fin 1) = Dbl.fin 0 := by
  simp [clamp, h]

theorem clamp_of_one_lt (t : Dbl) (h : (Dbl.fin 1).lt t = true) :
    clamp t (Dbl.fin 0) (Dbl.fin 1) = Dbl.fin 1 := by
  cases t with
  | fin q =>
      have h1 : (1 : ℚ) < q := by simpa [Dbl.lt] using h
      have h0 : ¬ q < 0 := by linarith
      simp [clamp, Dbl.lt, h0, h1]
  | pos_inf => simp [clamp, Dbl.lt]
  | neg_inf => simp [Dbl.lt] at h
  | nan => simp [Dbl.lt] at h

theorem lerp_channel_zero (a b : uint8_t) : lerp_channel a b (Dbl.fin 0) = .ok a := by
  have : Dbl.ofInt (a.val : Int) + Dbl.ofInt ((b.val : Int) - (a.val : Int)) * Dbl.fin 0
      = Dbl.fin (a.val : ℚ) := by
    show Dbl.add _ (Dbl.mul _ _) = _
    simp [Dbl.ofInt, Dbl.add, Dbl.mul]
  rw [lerp_channel, this, to_uint8_natCast]

theorem lerp_channel_one (a b : uint8_t) : lerp_channel a b (Dbl.fin 1) = .ok b := by
  have : Dbl.ofInt (a.val : Int) + Dbl.ofInt ((b.val : Int) - (a.val : Int)) * Dbl.fin 1
      = Dbl.fin (b.val : ℚ) := by
    show Dbl.add _ (Dbl.mul _ _) = _
    simp [Dbl.ofInt, Dbl.add, Dbl.mul]
  rw [lerp_channel, this, to_uint8_natCast]

theorem lerp_channel_same (a : uint8_t) (q : ℚ) : lerp_channel a a (Dbl.fin q) = .ok a := by
  have : Dbl.ofInt (a.val : Int) + Dbl.ofInt ((a.val : Int) - (a.val : Int)) * Dbl.fin q
      = Dbl.fin (a.val : ℚ) := by
    show Dbl.add _ (Dbl.mul _ _) = _
    simp [Dbl.ofInt, Dbl.add, Dbl.mul]
  rw [lerp_channel, this, to_uint8_natCast]

theorem lerp_channel_nan (a b : uint8_t) :
    lerp_channel a b Dbl.nan = .error .undefined_conversion := by
  have : Dbl.ofInt (a.val : Int) + Dbl.ofInt ((b.val : Int) - (a.val : Int)) * Dbl.nan
      = Dbl.nan := by
    show Dbl.add _ (Dbl.mul _ _) = _
    simp [Dbl.ofInt, Dbl.add, Dbl.mul]
  rw [lerp_channel, this]; rfl

theorem lerp_color_at_zero (from_ to_ : Color) : lerp_color from_ to_ (Dbl.fin 0) = .ok from_ := by
  simp only [lerp_color, clamp_zero, lerp_channel_zero]
  rfl

theorem lerp_color_at_one (from_ to_ : Color) : lerp_color from_ to_ (Dbl.fin 1) = .ok to_ := by
  simp only [lerp_color, clamp_one, lerp_channel_one]
  rfl

/-- C6: for every pair of colours, `lerp_color` at `t = 0` gives `from` and at `t = 1`
gives `to`, in all three channels. -/
theorem lerp_color_endpoints (from_ to_ : Color) :
    lerp_color from_ to_ (Dbl.fin 0) = .ok from_ ∧ lerp_color from_ to_ (Dbl.fin 1) = .ok to_ :=
  ⟨lerp_color_at_zero from_ to_, lerp_color_at_one from_ to_⟩

/-- C7: for every pair of colours and every `t` (NaN and the infinities included),
`lerp_color` at `t` equals `lerp_color` at `clamp(t, 0, 1)`; every `t < 0` gives the
result of `t = 0`, which is `from`, and every `t > 1` the result of `t = 1`, which is
`to`. -/
theorem lerp_color_clamped (from_ to_ : Color) (t : Dbl) :
    lerp_color from_ to_ t = lerp_color from_ to_ (clamp t (Dbl.fin 0) (Dbl.fin 1)) ∧
      (t.lt (Dbl.fin 0) = true →
        lerp_color from_ to_ t = lerp_color from_ to_ (Dbl.fin 0) ∧
          lerp_color from_ to_ t = .ok from_) ∧
      ((Dbl.fin 1).lt t = true →
        lerp_color from_ to_ t = lerp_color from_ to_ (Dbl.fin 1) ∧
          lerp_color from_ to_ t = .ok to_) := by
  refine ⟨?_, ?_, ?_⟩
  · simp only [lerp_color, clamp_idem]
  · intro h
    have e : lerp_color from_ to_ t = lerp_color from_ to_ (Dbl.fin 0) := by
      simp only [lerp_color, clamp_of_lt_zero t h, clamp_zero]
    exact ⟨e, e.trans (lerp_color_at_zero from_ to_)⟩
  · intro h
    have e : lerp_color from_ to_ t = lerp_color from_ to_ (Dbl.fin 1) := by
      simp only [lerp_color, clamp_of_one_lt t h, clamp_one]
    exact ⟨e, e.trans (lerp_color_at_one from_ to_)⟩

theorem lerp_color_clamped_witness :
    (Dbl.fin (-5)).lt (Dbl.fin 0) = true ∧ (Dbl.fin 1).lt Dbl.pos_inf = true ∧
      lerp_color Colors.RED Colors.BLUE (Dbl.fin (-5)) = .ok Colors.RED ∧
      lerp_color Colors.RED Colors.BLUE Dbl.pos_inf = .ok Colors.BLUE :=
  ⟨by simp [Dbl.lt], by simp [Dbl.lt],
    ((lerp_color_clamped Colors.RED Colors.BLUE (Dbl.fin (-5))).2.1 (by simp [Dbl.lt])).2,
    ((lerp_color_clamped Colors.RED Colors.BLUE Dbl.pos_inf).2.2 (by simp [Dbl.lt])).2⟩

/-! ## Theorems: `colorize_ranges` -/

theorem size_sub_of_le {a b : Nat} (h : b ≤ a) : size_sub a b = a - b := by
  simp [size_sub, h]

theorem substr_ok (text : Text) (pos count : Nat) (h : pos ≤ text.length) :
    substr text pos count = .ok ((text.drop pos).take count) := by
  simp [substr, Nat.not_lt.mpr h]

theorem substr_from_ok (text : Text) (pos : Nat) (h : pos ≤ text.length) :
    substr_from text pos = .ok (text.drop pos) := by
  simp [substr_from, Nat.not_lt.mpr h]

/-- Two adjacent slices of a text make up the slice that spans both. -/
theorem take_drop_glue (l : Text) {a b c : Nat} (hab : a ≤ b) (hbc : b ≤ c) :
    (l.drop a).take (b - a) ++ (l.drop b).take (c - b) = (l.drop a).take (c - a) := by
  have h1 : c - a = (b - a) + (c - b) := by omega
  have h2 : (l.drop a).drop (b - a) = l.drop b := by
    rw [List.drop_drop]; congr 1; omega
  rw [h1, List.take_add, h2]

theorem render_cons (p : Piece) (ps : List Piece) : render (p :: ps) = p.chars ++ render ps := by
  simp [render]

theorem render_append (ps qs : List Piece) : render (ps ++ qs) = render ps ++ render qs := by
  simp [render]

theorem strip_codes_append (ps qs : List Piece) :
    strip_codes (ps ++ qs) = strip_codes ps ++ strip_codes qs := by
  induction ps with
  | nil => rfl
  | cons p ps ih =>
      cases p with
      | plain s => simp [strip_codes, ih]
      | code s => simp [strip_codes, ih]

theorem inserted_codes_append (ps qs : List Piece) :
    inserted_codes (ps ++ qs) = inserted_codes ps ++ inserted_codes qs := by
  induction ps with
  | nil => rfl
  | cons p ps ih =>
      cases p with
      | plain s => simp [inserted_codes, ih]
      | code s => simp [inserted_codes, ih]

theorem check_ranges_ok (text : Text) (ranges : List ColorRange)
    (h : ∀ r ∈ ranges, range_ok text r) : check_ranges text ranges = .ok () := by
  induction ranges with
  | nil => rfl
  | cons r rest ih =>
      have hr : range_ok text r := h r (List.mem_cons_self _ _)
      simp only [check_ranges, hr, if_true]
      exact ih (fun x hx => h x (List.mem_cons_of_mem _ hx))

/-- Invariant of the main loop of `colorize_ranges`: from a cursor inside the text and
with well-formed, sorted ranges ahead, the loop appends pieces whose inserted codes are
those of the ranges and whose copied characters are the text between the old and the
new cursor. -/
theorem colorize_ranges_loop_pieces (text : Text) :
    ∀ (ranges : List ColorRange) (pos : Nat) (result : Text),
      (∀ r ∈ ranges, range_ok text r) → sorted_from pos ranges → pos ≤ text.length →
      ∃ (ps : List Piece) (pos' : Nat),
        colorize_ranges_loop text ranges pos result = .ok (result ++ render ps, pos') ∧
        pos ≤ pos' ∧ pos' ≤ text.length ∧
        inserted_codes ps = ranges.flatMap (fun r => [r.color.to_ansi_fg, RESET]) ∧
        strip_codes ps = (text.drop pos).take (pos' - pos) := by
  intro ranges
  induction ranges with
  | nil =>
      intro pos result _ _ hpos
      exact ⟨[], pos, by simp [colorize_ranges_loop, render, pure, Except.pure], le_refl _, hpos,
        rfl, by simp [strip_codes]⟩
  | cons r rest ih =>
      intro pos result hok hsorted hpos
      obtain ⟨hstart, hrest⟩ := hsorted
      obtain ⟨hse, hel⟩ := hok r (List.mem_cons_self _ _)
      have hsl : r.start ≤ text.length := le_trans hse hel
      obtain ⟨ps, pos', hloop, hle, hle', hcodes, hstrip⟩ :=
        ih r.end_
          (result ++ (text.drop pos).take (r.start - pos) ++ r.color.to_ansi_fg ++
            (text.drop r.start).take (r.end_ - r.start) ++ RESET)
          (fun x hx => hok x (List.mem_cons_of_mem _ hx)) hrest hel
      refine ⟨Piece.plain ((text.drop pos).take (r.start - pos)) :: Piece.code r.color.to_ansi_fg ::
        Piece.plain ((text.drop r.start).take (r.end_ - r.start)) :: Piece.code RESET :: ps,
        pos', ?_, by omega, hle', ?_, ?_⟩
      · have hbefore : (if pos < r.start then
              (do let before ← substr text pos (size_sub r.start pos)
                  pure (result ++ before) : Except Err Text)
            else pure result) = .ok (result ++ (text.drop pos).take (r.start - pos)) := by
          by_cases hlt : pos < r.start
          · rw [if_pos hlt, substr_ok text pos _ hpos, size_sub_of_le hstart]; rfl
          · have : r.start - pos = 0 := by omega
            rw [if_neg hlt, this]; simp [pure, Except.pure]
        rw [colorize_ranges_loop, hbefore, substr_ok text r.start _ hsl, size_sub_of_le hse]
        simp only [bind, Except.bind]
        rw [hloop]
        simp [render_cons, Piece.chars, List.append_assoc]
      · simp [inserted_codes, hcodes]
      · simp only [strip_codes]
        rw [hstrip, ← List.append_assoc, take_drop_glue text hstart hse,
          take_drop_glue text (le_trans hstart hse) hle]

/-- C4: for every text and every list of ranges, each with `start <= end <= length` and
each starting at or after the end of the one before it, the output of
`colorize_ranges` is the text cut into pieces with the ranges' foreground codes and
reset codes inserted between them, in order; removing the inserted codes yields exactly
the text. -/
theorem colorize_ranges_strip (ndebug : Bool) (text : Text) (ranges : List ColorRange)
    (h_ok : ∀ r ∈ ranges, r.start ≤ r.end_ ∧ r.end_ ≤ text.length)
    (h_sorted : sorted_from 0 ranges) :
    ∃ ps : List Piece,
      colorize_ranges ndebug text ranges = .ok (render ps) ∧
      inserted_codes ps = ranges.flatMap (fun r => [r.color.to_ansi_fg, RESET]) ∧
      strip_codes ps = text := by
  obtain ⟨ps, pos', hloop, _, hle', hcodes, hstrip⟩ :=
    colorize_ranges_loop_pieces text ranges 0 [] h_ok h_sorted (Nat.zero_le _)
  have hcheck : check_ranges text ranges = .ok () := check_ranges_ok text ranges h_ok
  refine ⟨ps ++ [Piece.plain (text.drop pos')], ?_, ?_, ?_⟩
  · have hmain : colorize_ranges ndebug text ranges =
        (if pos' < text.length then
          (do let tail ← substr_from text pos'
              pure (render ps ++ tail) : Except Err Text)
         else pure (render ps)) := by
      cases ndebug <;>
        simp [colorize_ranges, hcheck, hloop, bind, Except.bind, pure, Except.pure]
    rw [hmain, render_append]
    by_cases hlt : pos' < text.length
    · rw [if_pos hlt, substr_from_ok text pos' hle']
      simp [render, Piece.chars, bind, Except.bind, pure, Except.pure]
    · have : text.drop pos' = [] := List.drop_eq_nil_of_le (by omega)
      rw [if_neg hlt, this]
      simp [render, Piece.chars, pure, Except.pure]
  · simp [inserted_codes_append, inserted_codes, hcodes]
  · rw [strip_codes_append, hstrip]
    simp [strip_codes]

theorem colorize_ranges_strip_witness :
    (∀ r ∈ [(⟨0, 5, Colors.RED⟩ : ColorRange), ⟨6, 11, Colors.BLUE⟩],
        r.start ≤ r.end_ ∧ r.end_ ≤ ("Hello World").toList.length) ∧
      sorted_from 0 [(⟨0, 5, Colors.RED⟩ : ColorRange), ⟨6, 11, Colors.BLUE⟩] ∧
      ∃ ps : List Piece,
        colorize_ranges false ("Hello World").toList [⟨0, 5, Colors.RED⟩, ⟨6, 11, Colors.BLUE⟩]
          = .ok (render ps) ∧
        inserted_codes ps =
          [Colors.RED.to_ansi_fg, RESET, Colors.BLUE.to_ansi_fg, RESET] ∧
        strip_codes ps = ("Hello World").toList :=
  ⟨by decide, by decide,
    colorize_ranges_strip false ("Hello World").toList [⟨0, 5, Colors.RED⟩, ⟨6, 11, Colors.BLUE⟩]
      (by decide) (by decide)⟩

/-! ## Theorems: `rainbow_range` -/

/-- C3: for every text, `rainbow_range` returns the text unchanged as soon as
`start >= end`, or `start >= length`, or `end > length`. -/
theorem rainbow_range_identity (env : Libm) (text : Text) (start end_ : Nat)
    (h : start ≥ end_ ∨ start ≥ text.length ∨ end_ > text.length) :
    rainbow_range env text start end_ = .ok text := by
  have hc : start ≥ text.length ∨ end_ > text.length ∨ start ≥ end_ := by tauto
  simp only [rainbow_range, if_pos hc]
  rfl

theorem rainbow_range_identity_witness :
    ((9 : Nat) ≥ 4 ∨ 9 ≥ ("RAINBOW").toList.length ∨ 4 > ("RAINBOW").toList.length) ∧
      rainbow_range libm_approx ("RAINBOW").toList 9 4 = .ok ("RAINBOW").toList :=
  ⟨by decide, rainbow_range_identity libm_approx ("RAINBOW").toList 9 4 (by decide)⟩

/-- C10: for every text and every `start < end <= length`, `rainbow_range` returns the
first `start` characters unchanged, then `rainbow` with start phase 0 applied to the
slice `text[start, end)`, then the characters from `end` on unchanged. -/
theorem rainbow_range_layout (env : Libm) (text : Text) (start end_ : Nat)
    (h1 : start < end_) (h2 : end_ ≤ text.length) :
    rainbow_range env text start end_ =
      (rainbow env ((text.drop start).take (end_ - start)) (Dbl.fin 0)).map
        (fun middle => text.take start ++ middle ++ text.drop end_) := by
  have hc : ¬ (start ≥ text.length ∨ end_ > text.length ∨ start ≥ end_) := by omega
  rw [rainbow_range, if_neg hc, substr_ok text 0 start (Nat.zero_le _),
    substr_ok text start _ (by omega), size_sub_of_le (le_of_lt h1),
    substr_from_ok text end_ h2]
  simp only [bind, Except.bind, Except.map, pure, Except.pure, List.drop_zero,
    List.append_assoc]

theorem rainbow_range_layout_witness :
    (7 : Nat) < 14 ∧ 14 ≤ ("Normal RAINBOW normal").toList.length ∧
      rainbow_range libm_approx ("Normal RAINBOW normal").toList 7 14 =
        (rainbow libm_approx ("RAINBOW").toList (Dbl.fin 0)).map
          (fun middle => ("Normal ").toList ++ middle ++ (" normal").toList) :=
  ⟨by decide, by decide,
    rainbow_range_layout libm_approx ("Normal RAINBOW normal").toList 7 14 (by decide) (by decide)⟩


/-! ## Theorems: the demo call of `colorize_ranges` -/

/-- C5: on `"Hello World !!!"` with the demo's ranges `(0,5,RED)`, `(6,11,GREEN)`,
`(12,17,BLUE)`, a build with `NDEBUG` returns the three words coloured and the two
spaces uncoloured; a build with assertions stops at `assert(range.end <= text.size())`,
because the text has 15 characters and the third range ends at 17. -/
theorem colorize_ranges_demo :
    colorize_ranges true ("Hello World !!!").toList demo_ranges =
        .ok (Colors.RED.to_ansi_fg ++ ("Hello").toList ++ RESET ++ (" ").toList ++
          Colors.GREEN.to_ansi_fg ++ ("World").toList ++ RESET ++ (" ").toList ++
          Colors.BLUE.to_ansi_fg ++ ("!!!").toList ++ RESET) ∧
      ("Hello World !!!").toList.length = 15 ∧
      colorize_ranges false ("Hello World !!!").toList demo_ranges =
        .error .assertion_failed :=
  ⟨rfl, rfl, rfl⟩

/-! ## Theorems: `gradient` -/

theorem clamp_fin_finite (q : ℚ) : ∃ q' : ℚ, clamp (Dbl.fin q) (Dbl.fin 0) (Dbl.fin 1) = Dbl.fin q' := by
  unfold clamp
  split
  · exact ⟨0, rfl⟩
  · split
    · exact ⟨1, rfl⟩
    · exact ⟨q, rfl⟩

theorem lerp_color_same (A : Color) (q : ℚ) : lerp_color A A (Dbl.fin q) = .ok A := by
  obtain ⟨q', hq'⟩ := clamp_fin_finite q
  simp only [lerp_color, hq', lerp_channel_same]
  rfl

theorem lerp_color_nan (from_ to_ : Color) :
    lerp_color from_ to_ Dbl.nan = .error .undefined_conversion := by
  have : clamp Dbl.nan (Dbl.fin 0) (Dbl.fin 1) = Dbl.nan := by simp [clamp, Dbl.lt]
  simp only [lerp_color, this, lerp_channel_nan]
  rfl

/-- On a text of two or more characters the parameter `t` of `gradient` is finite. -/
theorem gradient_t_finite (size i : Nat) (h : 2 ≤ size) :
    Dbl.ofNat i / Dbl.ofNat (size_sub size 1) = Dbl.fin ((i : ℚ) / ((size - 1 : Nat) : ℚ)) := by
  have h1 : size_sub size 1 = size - 1 := size_sub_of_le (by omega)
  have h2 : ((size - 1 : Nat) : ℚ) ≠ 0 := by
    have : size - 1 ≠ 0 := by omega
    exact_mod_cast this
  show Dbl.div _ _ = _
  rw [h1]
  simp [Dbl.div, Dbl.ofNat, h2]

/-- On a text of one character the parameter `t` of `gradient` is `0.0 / 0.0`: NaN. -/
theorem gradient_t_single : Dbl.ofNat 0 / Dbl.ofNat (size_sub 1 1) = Dbl.nan := by
  show Dbl.div _ _ = _
  simp [Dbl.div, Dbl.ofNat, size_sub]

theorem gradient_loop_same (size : Nat) (A : Color) (h : 2 ≤ size) :
    ∀ (rest : Text) (i : Nat) (result : Text),
      gradient_loop size A A i rest result =
        .ok (result ++ rest.flatMap (fun ch => A.to_ansi_fg ++ [ch])) := by
  intro rest
  induction rest with
  | nil => intro i result; simp [gradient_loop, pure, Except.pure]
  | cons ch rest ih =>
      intro i result
      simp only [gradient_loop, gradient_t_finite size i h, lerp_color_same, bind, Except.bind]
      rw [ih]
      simp [List.flatMap_cons, List.append_assoc]

/-- C9: on a text of exactly one character `gradient` computes `t` as `0.0 / 0.0`, which
is NaN and not `0`; `lerp_color` then converts NaN to `uint8_t`, so for every pair of
colours the result of the call is undefined. -/
theorem gradient_single_char (c : Char) (from_ to_ : Color) :
    Dbl.ofNat 0 / Dbl.ofNat (size_sub [c].length 1) = Dbl.nan ∧
      lerp_color from_ to_ Dbl.nan = .error .undefined_conversion ∧
      gradient [c] from_ to_ = .error .undefined_conversion := by
  refine ⟨gradient_t_single, lerp_color_nan from_ to_, ?_⟩
  have ht : Dbl.ofNat 0 / Dbl.ofNat (size_sub [c].length 1) = Dbl.nan := gradient_t_single
  simp only [gradient, gradient_loop, List.isEmpty_cons, ht, lerp_color_nan, bind, Except.bind]
  rfl

/-- C8: with `from == to == A`, `gradient` returns the empty string on the empty text,
and on a text of two or more characters every character is preceded by exactly `A`'s
foreground code, with one reset code at the end; on a text of exactly one character the
result of the call is undefined. -/
theorem gradient_same_color (text : Text) (A : Color) :
    (text = [] → gradient text A A = .ok []) ∧
      (2 ≤ text.length →
        gradient text A A = .ok (text.flatMap (fun ch => A.to_ansi_fg ++ [ch]) ++ RESET)) ∧
      (text.length = 1 → gradient text A A = .error .undefined_conversion) := by
  refine ⟨?_, ?_, ?_⟩
  · intro h; subst h; rfl
  · intro h
    have hne : text.isEmpty = false := by
      cases text with
      | nil => simp at h
      | cons _ _ => rfl
    simp only [gradient, hne, gradient_loop_same text.length A h, bind, Except.bind]
    simp [pure, Except.pure]
  · intro h
    obtain ⟨c, rfl⟩ := List.length_eq_one.mp h
    have ht : Dbl.ofNat 0 / Dbl.ofNat (size_sub [c].length 1) = Dbl.nan := gradient_t_single
    simp only [gradient, gradient_loop, List.isEmpty_cons, ht, lerp_color_nan, bind, Except.bind]
    rfl

theorem gradient_same_color_witness :
    2 ≤ ("ab").toList.length ∧ ("x").toList.length = 1 ∧
      gradient ("ab").toList Colors.RED Colors.RED =
        .ok (Colors.RED.to_ansi_fg ++ ['a'] ++ Colors.RED.to_ansi_fg ++ ['b'] ++ RESET) ∧
      gradient ("x").toList Colors.RED Colors.RED = .error .undefined_conversion :=
  ⟨by decide, by decide,
    by simpa using (gradient_same_color ("ab").toList Colors.RED).2.1 (by decide),
    (gradient_same_color ("x").toList Colors.RED).2.2 (by decide)⟩

/-! ## Theorems: `colorize_ranges` on any well-formed ranges, the empty gradient, the demo ranges, injectivity of the code -/

theorem colorize_ranges_loop_ok (text : Text) :
    ∀ (ranges : List ColorRange) (pos : Nat) (result : Text),
      (∀ r ∈ ranges, range_ok text r) → pos ≤ text.length →
      ∃ (out : Text) (pos' : Nat),
        colorize_ranges_loop text ranges pos result = .ok (out, pos') ∧ pos' ≤ text.length := by
  intro ranges
  induction ranges with
  | nil =>
      intro pos result _ hpos
      exact ⟨result, pos, rfl, hpos⟩
  | cons r rest ih =>
      intro pos result hok hpos
      obtain ⟨hse, hel⟩ := hok r (List.mem_cons_self _ _)
      have hsl : r.start ≤ text.length := le_trans hse hel
      have hbefore : ∃ res1 : Text, (if pos < r.start then
              (do let before ← substr text pos (size_sub r.start pos)
                  pure (result ++ before) : Except Err Text)
            else pure result) = .ok res1 := by
        by_cases hlt : pos < r.start
        · rw [if_pos hlt, substr_ok text pos _ hpos]; exact ⟨_, rfl⟩
        · rw [if_neg hlt]; exact ⟨_, rfl⟩
      obtain ⟨res1, hres1⟩ := hbefore
      obtain ⟨out, pos', hloop, hle⟩ :=
        ih r.end_ (res1 ++ r.color.to_ansi_fg ++
            (text.drop r.start).take (size_sub r.end_ r.start) ++ RESET)
          (fun x hx => hok x (List.mem_cons_of_mem _ hx)) hel
      refine ⟨out, pos', ?_, hle⟩
      rw [colorize_ranges_loop, hres1, substr_ok text r.start _ hsl]
      simp only [bind, Except.bind]
      exact hloop

/-- C11: for every text and every list of ranges with `start <= end <= length`, in any
order and with overlaps allowed, `colorize_ranges` completes and returns a string: no
`substr` call starts past the end of the text and no assertion fails. -/
theorem colorize_ranges_returns (ndebug : Bool) (text : Text) (ranges : List ColorRange)
    (h_ok : ∀ r ∈ ranges, r.start ≤ r.end_ ∧ r.end_ ≤ text.length) :
    ∃ out : Text, colorize_ranges ndebug text ranges = .ok out := by
  obtain ⟨res, pos', hloop, hle⟩ :=
    colorize_ranges_loop_ok text ranges 0 [] h_ok (Nat.zero_le _)
  have hcheck : check_ranges text ranges = .ok () := check_ranges_ok text ranges h_ok
  have hmain : colorize_ranges ndebug text ranges =
      (if pos' < text.length then
        (do let tail ← substr_from text pos'
            pure (res ++ tail) : Except Err Text)
       else pure res) := by
    cases ndebug <;>
      simp [colorize_ranges, hcheck, hloop, bind, Except.bind, pure, Except.pure]
  rw [hmain]
  by_cases hlt : pos' < text.length
  · rw [if_pos hlt, substr_from_ok text pos' hle]; exact ⟨_, rfl⟩
  · rw [if_neg hlt]; exact ⟨_, rfl⟩

theorem colorize_ranges_returns_witness :
    (∀ r ∈ [(⟨6, 11, Colors.BLUE⟩ : ColorRange), ⟨0, 8, Colors.RED⟩, ⟨3, 3, Colors.GREEN⟩],
        r.start ≤ r.end_ ∧ r.end_ ≤ ("Hello World").toList.length) ∧
      ∃ out : Text,
        colorize_ranges false ("Hello World").toList
          [⟨6, 11, Colors.BLUE⟩, ⟨0, 8, Colors.RED⟩, ⟨3, 3, Colors.GREEN⟩] = .ok out :=
  ⟨by decide,
    colorize_ranges_returns false ("Hello World").toList
      [⟨6, 11, Colors.BLUE⟩, ⟨0, 8, Colors.RED⟩, ⟨3, 3, Colors.GREEN⟩] (by decide)⟩

/-- C14: for every pair of colours, `gradient` on the empty text returns the empty
string: no foreground code and no reset code. -/
theorem gradient_empty (from_ to_ : Color) : gradient [] from_ to_ = .ok [] := rfl

/-- C16: the text `"Hello World !!!"` has 15 characters, so of the demo's ranges
`(0,5)`, `(6,11)`, `(12,17)` the first two satisfy the asserted precondition
`start <= end <= length` and the third does not (17 > 15); the assertion loop of
`colorize_ranges` fails on the demo's list. -/
theorem demo_ranges_precondition :
    ("Hello World !!!").toList.length = 15 ∧
      range_ok ("Hello World !!!").toList ⟨0, 5, Colors.RED⟩ ∧
      range_ok ("Hello World !!!").toList ⟨6, 11, Colors.GREEN⟩ ∧
      ¬ range_ok ("Hello World !!!").toList ⟨12, 17, Colors.BLUE⟩ ∧
      ¬ (∀ r ∈ demo_ranges, r.start ≤ r.end_ ∧ r.end_ ≤ ("Hello World !!!").toList.length) ∧
      check_ranges ("Hello World !!!").toList demo_ranges = .error .assertion_failed :=
  ⟨rfl, by decide, by decide, by decide, by decide, rfl⟩

theorem to_string_injective (x y : uint8_t) (h : to_string x.val = to_string y.val) : x = y := by
  have hx := (to_string_plain_decimal x).2.2.2
  have hy := (to_string_plain_decimal y).2.2.2
  apply Fin.ext
  rw [← hx, ← hy, h]

theorem to_string_no_char (x : uint8_t) (sep : Char) (hsep : ¬ ('0' ≤ sep ∧ sep ≤ '9')) :
    sep ∉ to_string x.val := fun hmem =>
  hsep ((to_string_plain_decimal x).2.1 sep hmem)

/-- Two texts free of a separator, each followed by that separator and a rest, are
equal as wholes only if the texts and the rests are equal. -/
theorem split_at_separator (sep : Char) :
    ∀ (a b x y : Text), sep ∉ a → sep ∉ b → a ++ sep :: x = b ++ sep :: y → a = b ∧ x = y := by
  intro a
  induction a with
  | nil =>
      intro b x y _ hb h
      cases b with
      | nil => simpa using h
      | cons c b =>
          simp only [List.nil_append, List.cons_append, List.cons.injEq] at h
          exact absurd (h.1 ▸ List.mem_cons_self _ _) hb
  | cons c a ih =>
      intro b x y ha hb h
      cases b with
      | nil =>
          simp only [List.nil_append, List.cons_append, List.cons.injEq] at h
          exact absurd (h.1 ▸ List.mem_cons_self _ _) ha
      | cons d b =>
          simp only [List.cons_append, List.cons.injEq] at h
          obtain ⟨hab, hxy⟩ := ih b x y (fun hm => ha (List.mem_cons_of_mem _ hm))
            (fun hm => hb (List.mem_cons_of_mem _ hm)) h.2
          exact ⟨by rw [h.1, hab], hxy⟩

/-- C20: the foreground code is injective: two colours have the same foreground code
exactly when they are equal in all three channels. -/
theorem to_ansi_fg_injective (c1 c2 : Color) :
    c1.to_ansi_fg = c2.to_ansi_fg ↔ (c1.r = c2.r ∧ c1.g = c2.g ∧ c1.b = c2.b) := by
  constructor
  · intro h
    have hsemi : ¬ ('0' ≤ ';' ∧ ';' ≤ '9') := by decide
    have hm : ¬ ('0' ≤ 'm' ∧ 'm' ≤ '9') := by decide
    simp only [Color.to_ansi_fg, List.append_assoc, List.cons_append, List.nil_append,
      List.cons.injEq, true_and] at h
    obtain ⟨hr, h⟩ := split_at_separator ';' _ _ _ _ (to_string_no_char c1.r ';' hsemi)
      (to_string_no_char c2.r ';' hsemi) h
    obtain ⟨hg, h⟩ := split_at_separator ';' _ _ _ _ (to_string_no_char c1.g ';' hsemi)
      (to_string_no_char c2.g ';' hsemi) h
    obtain ⟨hb, _⟩ := split_at_separator 'm' _ _ _ _ (to_string_no_char c1.b 'm' hm)
      (to_string_no_char c2.b 'm' hm) h
    exact ⟨to_string_injective _ _ hr, to_string_injective _ _ hg, to_string_injective _ _ hb⟩
  · rintro ⟨hr, hg, hb⟩
    simp only [Color.to_ansi_fg, hr, hg, hb]

/-! ## Theorems: the gradient animation loop -/

/-- One iteration of the gradient animation on finite values. -/
theorem animate_gradient_step_fin (q d : ℚ) :
    animate_gradient_step ⟨Dbl.fin q, Dbl.fin d⟩ =
      ⟨Dbl.fin (q + d), if 1 ≤ q + d ∨ q + d ≤ 0 then Dbl.fin (-d) else Dbl.fin d⟩ := by
  have hsum : Dbl.fin q + Dbl.fin d = Dbl.fin (q + d) := rfl
  simp only [animate_gradient_step, hsum, Dbl.le, Dbl.neg, Bool.or_eq_true, decide_eq_true_eq]

/-- Invariant of the gradient animation: `t` is `k / 100` for a whole `k` in `0..100`,
moving up while `k < 100` and down while `k > 0`. -/
theorem animate_gradient_invariant (n : Nat) :
    ∃ k : Nat, k ≤ 100 ∧
      ((animate_gradient_run n = ⟨Dbl.fin ((k : ℚ) / 100), Dbl.fin (1 / 100)⟩ ∧ k < 100) ∨
        (animate_gradient_run n = ⟨Dbl.fin ((k : ℚ) / 100), Dbl.fin (-(1 / 100))⟩ ∧ 0 < k)) := by
  induction n with
  | zero =>
      exact ⟨0, by omega, Or.inl ⟨by simp [animate_gradient_run, animate_gradient_init],
        by omega⟩⟩
  | succ n ih =>
      obtain ⟨k, hk, hs⟩ := ih
      rcases hs with ⟨hs, hlt⟩ | ⟨hs, hpos⟩
      · have hq : (k : ℚ) / 100 + 1 / 100 = ((k + 1 : Nat) : ℚ) / 100 := by
          push_cast; ring
        have hk0 : ¬ (((k + 1 : Nat) : ℚ) / 100 ≤ 0) := by
          have : (0 : ℚ) < ((k + 1 : Nat) : ℚ) / 100 := by positivity
          linarith
        refine ⟨k + 1, by omega, ?_⟩
        rw [animate_gradient_run, hs, animate_gradient_step_fin, hq]
        by_cases h100 : k + 1 = 100
        · right
          have h1 : (1 : ℚ) ≤ ((k + 1 : Nat) : ℚ) / 100 := by
            rw [h100]; norm_num
          exact ⟨by rw [if_pos (Or.inl h1)], by omega⟩
        · left
          have h1 : ¬ ((1 : ℚ) ≤ ((k + 1 : Nat) : ℚ) / 100) := by
            have : ((k + 1 : Nat) : ℚ) < 100 := by exact_mod_cast (by omega : k + 1 < 100)
            intro hc
            rw [le_div_iff₀ (by norm_num : (0 : ℚ) < 100)] at hc
            linarith
          exact ⟨by rw [if_neg (not_or.mpr ⟨h1, hk0⟩)], by omega⟩
      · obtain ⟨j, rfl⟩ : ∃ j, k = j + 1 := ⟨k - 1, by omega⟩
        have hq : ((j + 1 : Nat) : ℚ) / 100 + -(1 / 100) = (j : ℚ) / 100 := by
          push_cast; ring
        have h1 : ¬ ((1 : ℚ) ≤ (j : ℚ) / 100) := by
          have : (j : ℚ) < 100 := by exact_mod_cast (by omega : j < 100)
          intro hc
          rw [le_div_iff₀ (by norm_num : (0 : ℚ) < 100)] at hc
          linarith
        refine ⟨j, by omega, ?_⟩
        rw [animate_gradient_run, hs, animate_gradient_step_fin, hq]
        by_cases h0 : j = 0
        · left
          have hz : (j : ℚ) / 100 ≤ 0 := by subst h0; norm_num
          exact ⟨by rw [if_pos (Or.inr hz), neg_neg], by omega⟩
        · right
          have hk0 : ¬ ((j : ℚ) / 100 ≤ 0) := by
            have : (0 : ℚ) < (j : ℚ) := by exact_mod_cast Nat.pos_of_ne_zero h0
            have : (0 : ℚ) < (j : ℚ) / 100 := by positivity
            linarith
          exact ⟨by rw [if_neg (not_or.mpr ⟨h1, hk0⟩)], by omega⟩

/-- C15: in the gradient animation loop, started at `t = 0`, `direction = 0.01` and run
in exact arithmetic, after any number of iterations `t` is finite and within one step
of `[0, 1]`: `-0.01 <= t <= 1.01` (it even stays inside `[0, 1]`). -/
theorem animate_gradient_t_bounded (n : Nat) :
    ∃ q : ℚ, (animate_gradient_run n).t = Dbl.fin q ∧
      -(1 / 100) ≤ q ∧ q ≤ 101 / 100 ∧ 0 ≤ q ∧ q ≤ 1 := by
  obtain ⟨k, hk, hs⟩ := animate_gradient_invariant n
  have h0 : (0 : ℚ) ≤ (k : ℚ) / 100 := by positivity
  have h1 : (k : ℚ) / 100 ≤ 1 := by
    have : (k : ℚ) ≤ 100 := by exact_mod_cast hk
    rw [div_le_iff₀ (by norm_num : (0 : ℚ) < 100)]
    linarith
  have ht : (animate_gradient_run n).t = Dbl.fin ((k : ℚ) / 100) := by
    rcases hs with ⟨hs, _⟩ | ⟨hs, _⟩ <;> rw [hs]
  exact ⟨(k : ℚ) / 100, ht, by linarith, by linarith, h0, h1⟩

/-! ## Theorems: the range of `lerp_color` and the ends of `gradient` -/

/-- Truncation toward zero of a non-negative rational is its floor. -/
theorem tdiv_num_den_of_nonneg (q : ℚ) (h : 0 ≤ q) : Int.tdiv q.num q.den = ⌊q⌋ := by
  rw [Rat.floor_def, Int.tdiv_eq_ediv (Rat.num_nonneg.mpr h) (Int.natCast_nonneg _)]

/-- A value between two 8-bit values converts to an 8-bit value between them. -/
theorem to_uint8_between (q : ℚ) (lo hi : uint8_t) (hlo : (lo.val : ℚ) ≤ q)
    (hhi : q ≤ (hi.val : ℚ)) :
    ∃ c : uint8_t, (Dbl.fin q).to_uint8 = .ok c ∧ lo ≤ c ∧ c ≤ hi := by
  have hq0 : 0 ≤ q := le_trans (Nat.cast_nonneg _) hlo
  have hfl : Int.tdiv q.num q.den = ⌊q⌋ := tdiv_num_den_of_nonneg q hq0
  have h1 : (lo.val : Int) ≤ ⌊q⌋ := Int.le_floor.mpr (by exact_mod_cast hlo)
  have h2 : ⌊q⌋ ≤ (hi.val : Int) := by
    have : ⌊q⌋ ≤ ⌊((hi.val : Int) : ℚ)⌋ := Int.floor_mono (by exact_mod_cast hhi)
    rwa [Int.floor_intCast] at this
  have hhi' := hi.isLt
  have hrange : 0 ≤ Int.tdiv q.num q.den ∧ Int.tdiv q.num q.den < 256 := by
    rw [hfl]; omega
  refine ⟨⟨(Int.tdiv q.num q.den).toNat, by omega⟩, ?_, ?_, ?_⟩
  · simp only [Dbl.to_uint8]
    rw [dif_pos hrange]
  · rw [Fin.le_def]; simp only; rw [hfl]; omega
  · rw [Fin.le_def]; simp only; rw [hfl]; omega

/-- After `std::clamp(t, 0, 1)` a `t` other than NaN is a finite value in `[0, 1]`. -/
theorem clamp_unit_range (t : Dbl) (h : t ≠ Dbl.nan) :
    ∃ q : ℚ, clamp t (Dbl.fin 0) (Dbl.fin 1) = Dbl.fin q ∧ 0 ≤ q ∧ q ≤ 1 := by
  cases t with
  | fin q =>
      by_cases h0 : q < 0
      · exact ⟨0, by simp [clamp, Dbl.lt, h0], le_refl _, by norm_num⟩
      · by_cases h1 : (1 : ℚ) < q
        · exact ⟨1, by simp [clamp, Dbl.lt, h0, h1], by norm_num, le_refl _⟩
        · exact ⟨q, by simp [clamp, Dbl.lt, h0, h1], not_lt.mp h0, not_lt.mp h1⟩
  | pos_inf => exact ⟨1, by simp [clamp, Dbl.lt], by norm_num, le_refl _⟩
  | neg_inf => exact ⟨0, by simp [clamp, Dbl.lt], le_refl _, by norm_num⟩
  | nan => exact absurd rfl h

/-- One channel of `lerp_color` at a parameter in `[0, 1]` lies between the two ends. -/
theorem lerp_channel_between (a b : uint8_t) (q : ℚ) (h0 : 0 ≤ q) (h1 : q ≤ 1) :
    ∃ c : uint8_t, lerp_channel a b (Dbl.fin q) = .ok c ∧ min a b ≤ c ∧ c ≤ max a b := by
  have hval : Dbl.ofInt (a.val : Int) + Dbl.ofInt ((b.val : Int) - (a.val : Int)) * Dbl.fin q
      = Dbl.fin ((a.val : ℚ) + ((b.val : ℚ) - (a.val : ℚ)) * q) := by
    show Dbl.add _ (Dbl.mul _ _) = _
    simp [Dbl.ofInt, Dbl.add, Dbl.mul]
  rw [lerp_channel, hval]
  rcases le_total a b with hab | hab
  · have habq : (a.val : ℚ) ≤ (b.val : ℚ) := by exact_mod_cast hab
    rw [min_eq_left hab, max_eq_right hab]
    apply to_uint8_between
    · nlinarith
    · nlinarith
  · have habq : (b.val : ℚ) ≤ (a.val : ℚ) := by exact_mod_cast hab
    rw [min_eq_right hab, max_eq_left hab]
    apply to_uint8_between
    · nlinarith
    · nlinarith

/-- Away from NaN `lerp_color` returns a colour whose channels lie between those of the
two ends. -/
theorem lerp_color_in_range (from_ to_ : Color) (t : Dbl) (h : t ≠ Dbl.nan) :
    ∃ c : Color, lerp_color from_ to_ t = .ok c ∧
      min from_.r to_.r ≤ c.r ∧ c.r ≤ max from_.r to_.r ∧
      min from_.g to_.g ≤ c.g ∧ c.g ≤ max from_.g to_.g ∧
      min from_.b to_.b ≤ c.b ∧ c.b ≤ max from_.b to_.b := by
  obtain ⟨q, hq, h0, h1⟩ := clamp_unit_range t h
  obtain ⟨r, hr, hr1, hr2⟩ := lerp_channel_between from_.r to_.r q h0 h1
  obtain ⟨g, hg, hg1, hg2⟩ := lerp_channel_between from_.g to_.g q h0 h1
  obtain ⟨b, hb, hb1, hb2⟩ := lerp_channel_between from_.b to_.b q h0 h1
  refine ⟨⟨r, g, b⟩, ?_, hr1, hr2, hg1, hg2, hb1, hb2⟩
  simp only [lerp_color, hq, hr, hg, hb]
  rfl

/-- C19: for every pair of colours and every `t` other than NaN (finite or infinite),
`lerp_color` returns a colour, and each of its channels lies between the corresponding
channels of `from` and `to`; so every value converted to 8 bits is within `[0, 255]`. -/
theorem lerp_color_between (from_ to_ : Color) (t : Dbl) (h : t ≠ Dbl.nan) :
    ∃ c : Color, lerp_color from_ to_ t = .ok c ∧
      min from_.r to_.r ≤ c.r ∧ c.r ≤ max from_.r to_.r ∧
      min from_.g to_.g ≤ c.g ∧ c.g ≤ max from_.g to_.g ∧
      min from_.b to_.b ≤ c.b ∧ c.b ≤ max from_.b to_.b ∧
      c.r.val ≤ 255 ∧ c.g.val ≤ 255 ∧ c.b.val ≤ 255 := by
  obtain ⟨c, hc, h1, h2, h3, h4, h5, h6⟩ := lerp_color_in_range from_ to_ t h
  exact ⟨c, hc, h1, h2, h3, h4, h5, h6, by omega, by omega, by omega⟩

theorem lerp_color_between_witness :
    Dbl.fin (1 / 2) ≠ Dbl.nan ∧
      ∃ c : Color, lerp_color Colors.ORANGE Colors.PURPLE (Dbl.fin (1 / 2)) = .ok c ∧
        min Colors.ORANGE.r Colors.PURPLE.r ≤ c.r ∧ c.r ≤ max Colors.ORANGE.r Colors.PURPLE.r ∧
        min Colors.ORANGE.g Colors.PURPLE.g ≤ c.g ∧ c.g ≤ max Colors.ORANGE.g Colors.PURPLE.g ∧
        min Colors.ORANGE.b Colors.PURPLE.b ≤ c.b ∧ c.b ≤ max Colors.ORANGE.b Colors.PURPLE.b ∧
        c.r.val ≤ 255 ∧ c.g.val ≤ 255 ∧ c.b.val ≤ 255 :=
  ⟨by simp, lerp_color_between Colors.ORANGE Colors.PURPLE (Dbl.fin (1 / 2)) (by simp)⟩

/-- For `t = NaN` the claim of C19 fails: `lerp_color` converts NaN to `uint8_t`, so no
channel value exists at all. -/
theorem lerp_color_nan_undefined :
    lerp_color Colors.RED Colors.BLUE Dbl.nan = .error .undefined_conversion ∧
      ¬ ∃ c : Color, lerp_color Colors.RED Colors.BLUE Dbl.nan = .ok c ∧
        min Colors.RED.r Colors.BLUE.r ≤ c.r ∧ c.r ≤ max Colors.RED.r Colors.BLUE.r := by
  have h := lerp_color_nan Colors.RED Colors.BLUE
  refine ⟨h, ?_⟩
  rintro ⟨c, hc, _⟩
  rw [h] at hc
  cases hc

/-- On a text of two or more characters the loop of `gradient` never fails: from index
`i` on it appends, for the `k`-th remaining character, the foreground code of
`lerp_color(from, to, (i + k) / (size - 1))` and the character. -/
theorem gradient_loop_colors (size : Nat) (from_ to_ : Color) (h : 2 ≤ size) :
    ∀ (rest : Text) (i : Nat) (result : Text),
      ∃ colors : List Color, colors.length = rest.length ∧
        (∀ k : Nat, k < colors.length →
          (lerp_color from_ to_ (Dbl.fin (((i + k : Nat) : ℚ) / ((size - 1 : Nat) : ℚ)))).toOption
            = colors[k]?) ∧
        gradient_loop size from_ to_ i rest result =
          .ok (result ++ (List.zipWith (fun c ch => c.to_ansi_fg ++ [ch]) colors rest).flatten) := by
  intro rest
  induction rest with
  | nil =>
      intro i result
      exact ⟨[], rfl, fun k hk => absurd hk (Nat.not_lt_zero _),
        by simp [gradient_loop, pure, Except.pure]⟩
  | cons ch rest ih =>
      intro i result
      obtain ⟨c, hc, _⟩ := lerp_color_in_range from_ to_
        (Dbl.fin ((i : ℚ) / ((size - 1 : Nat) : ℚ))) (by simp)
      obtain ⟨colors, hlen, hidx, hloop⟩ := ih (i + 1) (result ++ c.to_ansi_fg ++ [ch])
      refine ⟨c :: colors, by simp [hlen], ?_, ?_⟩
      · intro k hk
        cases k with
        | zero => simp [hc, Except.toOption]
        | succ k =>
            have := hidx k (by simpa using hk)
            have he : i + (k + 1) = i + 1 + k := by omega
            rw [he, this]
            simp
      · simp only [gradient_loop, gradient_t_finite size i h, hc, bind, Except.bind]
        rw [hloop]
        simp [List.append_assoc]

/-- C17: for every text of two or more characters and every pair of colours, `gradient`
returns each character preceded by the foreground code of its colour, then one reset
code; the colour of the first character is exactly `from` and the colour of the last
character is exactly `to`. -/
theorem gradient_ends (text : Text) (from_ to_ : Color) (h : 2 ≤ text.length) :
    ∃ colors : List Color, colors.length = text.length ∧
      colors[0]? = some from_ ∧ colors[text.length - 1]? = some to_ ∧
      gradient text from_ to_ =
        .ok ((List.zipWith (fun c ch => c.to_ansi_fg ++ [ch]) colors text).flatten ++ RESET) := by
  obtain ⟨colors, hlen, hidx, hloop⟩ :=
    gradient_loop_colors text.length from_ to_ h text 0 []
  have hne : text.isEmpty = false := by
    cases text with
    | nil => simp at h
    | cons _ _ => rfl
  have hden : ((text.length - 1 : Nat) : ℚ) ≠ 0 := by
    have : text.length - 1 ≠ 0 := by omega
    exact_mod_cast this
  refine ⟨colors, hlen, ?_, ?_, ?_⟩
  · have := hidx 0 (by omega)
    rw [← this]
    simp [lerp_color_at_zero, Except.toOption]
  · have := hidx (text.length - 1) (by omega)
    rw [← this]
    have h1 : (((0 + (text.length - 1) : Nat) : ℚ) / ((text.length - 1 : Nat) : ℚ)) = 1 := by
      rw [Nat.zero_add]; exact div_self hden
    rw [h1]
    simp [lerp_color_at_one, Except.toOption]
  · simp only [gradient, hne, hloop, bind, Except.bind]
    simp [pure, Except.pure]

theorem gradient_ends_witness :
    2 ≤ ("abc").toList.length ∧
      ∃ colors : List Color, colors.length = ("abc").toList.length ∧
        colors[0]? = some Colors.BLUE ∧ colors[("abc").toList.length - 1]? = some Colors.GREEN ∧
        gradient ("abc").toList Colors.BLUE Colors.GREEN =
          .ok ((List.zipWith (fun c ch => c.to_ansi_fg ++ [ch]) colors ("abc").toList).flatten
            ++ RESET) :=
  ⟨by decide, gradient_ends ("abc").toList Colors.BLUE Colors.GREEN (by decide)⟩

/-! ## Theorems: `rainbow` position by position -/

theorem dbl_mul_comm_fin (a b : ℚ) : Dbl.fin a * Dbl.fin b = Dbl.fin b * Dbl.fin a := by
  show Dbl.mul _ _ = Dbl.mul _ _
  simp [Dbl.mul, mul_comm]

theorem mapM_ok_length {α β : Type} (f : α → Except Err β) :
    ∀ (l : List α) (out : List β), l.mapM f = .ok out → out.length = l.length := by
  intro l
  induction l with
  | nil =>
      intro out h
      rw [List.mapM_nil] at h
      cases h
      rfl
  | cons a l ih =>
      intro out h
      rw [List.mapM_cons] at h
      cases hfa : f a with
      | error e => rw [hfa] at h; simp [bind, Except.bind] at h
      | ok b =>
          rw [hfa] at h
          cases hl : l.mapM f with
          | error e => rw [hl] at h; simp [bind, Except.bind] at h
          | ok bs =>
              rw [hl] at h
              simp [bind, Except.bind, pure, Except.pure] at h
              subst h
              simp [ih bs hl]

/-- The loop of `rainbow` entered at index `i` computes the colours of the positions
`i, i+1, ...` in order and appends each code and character. -/
theorem rainbow_loop_spec (env : Libm) (start_phase : Dbl) :
    ∀ (rest : Text) (i : Nat) (result : Text),
      rainbow_loop env start_phase i rest result =
        (do
          let colors ← (List.range' i rest.length).mapM
            (fun j => get_rainbow_color env (start_phase + Dbl.fin (3 / 10) * Dbl.ofNat j))
          pure (result ++ (List.zipWith (fun c ch => c.to_ansi_fg ++ [ch]) colors rest).flatten)) := by
  intro rest
  induction rest with
  | nil =>
      intro i result
      simp only [rainbow_loop, List.length_nil, List.range'_zero, List.mapM_nil]
      simp [pure, Except.pure, bind, Except.bind]
  | cons ch rest ih =>
      intro i result
      have hphase : start_phase + Dbl.ofNat i * char_diff =
          start_phase + Dbl.fin (3 / 10) * Dbl.ofNat i := by
        rw [char_diff, Dbl.ofNat, dbl_mul_comm_fin]
      simp only [rainbow_loop, hphase, List.length_cons, List.range'_succ, List.mapM_cons, ih]
      cases get_rainbow_color env (start_phase + Dbl.fin (3 / 10) * Dbl.ofNat i) with
      | error e => rfl
      | ok c =>
          simp only [bind, Except.bind]
          cases (List.range' (i + 1) rest.length).mapM
              (fun j => get_rainbow_color env (start_phase + Dbl.fin (3 / 10) * Dbl.ofNat j)) with
          | error e => rfl
          | ok cs => simp [pure, Except.pure, List.append_assoc]

/-- C13: for every text of length `n` and every start phase, `rainbow` returns what
`rainbow_spec` describes: for `i = 0 .. n-1` in order the foreground code of
`get_rainbow_color(start_phase + 0.3 * i)` followed by the `i`-th character, then one
reset code; the colours computed are exactly `n`, so the string holds `n` foreground
codes and one reset. -/
theorem rainbow_layout (env : Libm) (text : Text) (start_phase : Dbl) :
    rainbow env text start_phase = rainbow_spec env text start_phase ∧
      ∀ colors : List Color,
        (List.range text.length).mapM
            (fun i => get_rainbow_color env (start_phase + Dbl.fin (3 / 10) * Dbl.ofNat i))
          = .ok colors →
        colors.length = text.length ∧
          rainbow env text start_phase =
            .ok ((List.zipWith (fun c ch => c.to_ansi_fg ++ [ch]) colors text).flatten
              ++ RESET) := by
  have heq : rainbow env text start_phase = rainbow_spec env text start_phase := by
    simp only [rainbow, rainbow_spec, rainbow_loop_spec, List.range_eq_range']
    cases (List.range' 0 text.length).mapM
        (fun j => get_rainbow_color env (start_phase + Dbl.fin (3 / 10) * Dbl.ofNat j)) with
    | error e => rfl
    | ok cs => simp [bind, Except.bind, pure, Except.pure]
  refine ⟨heq, ?_⟩
  intro colors hc
  refine ⟨by simpa using mapM_ok_length _ _ _ hc, ?_⟩
  rw [heq, rainbow_spec, hc]
  rfl

/-! ## Theorems: the range of `get_rainbow_color` -/

/-- The argument of the green and blue sine waves is finite when the phase and `M_PI`
are. -/
theorem phase_offset_fin (q p k : ℚ) :
    Dbl.fin q + Dbl.fin k * Dbl.fin p / Dbl.fin 3 = Dbl.fin (q + k * p / 3) := by
  show Dbl.add _ (Dbl.div (Dbl.mul _ _) _) = _
  simp [Dbl.add, Dbl.mul, Dbl.div]

/-- The scaled sine value `s * 127 + 128`. -/
theorem scaled_sine_fin (s : ℚ) :
    Dbl.fin s * Dbl.fin 127 + Dbl.fin 128 = Dbl.fin (s * 127 + 128) := rfl

/-- One channel of `get_rainbow_color` for a sine value in `[-1, 1]`: the scaled value
lies in `[1, 255]` and converts to a channel of at least 1. -/
theorem rainbow_channel_in_range (s : ℚ) (h1 : -1 ≤ s) (h2 : s ≤ 1) :
    1 ≤ s * 127 + 128 ∧ s * 127 + 128 ≤ 255 ∧
      ∃ c : uint8_t, (Dbl.fin (s * 127 + 128)).to_uint8 = .ok c ∧ 1 ≤ c.val := by
  have hlo : (1 : ℚ) ≤ s * 127 + 128 := by linarith
  have hhi : s * 127 + 128 ≤ 255 := by linarith
  obtain ⟨c, hc, hc1, _⟩ := to_uint8_between (s * 127 + 128) 1 255
    (by simpa using hlo) (by simpa using hhi)
  exact ⟨hlo, hhi, c, hc, by simpa [Fin.le_def] using hc1⟩

/-- C18: for a `std::sin` with values in `[-1, 1]` and a finite `M_PI`, at every finite
phase each of the three values `sin(x) * 127 + 128` that `get_rainbow_color` converts
is finite and lies in `[1, 255]`; so the conversion to `uint8_t` is defined (no
overflow, no wrap) and every channel of the colour returned is at least 1. -/
theorem rainbow_channels_in_range (env : Libm) (p : ℚ) (hpi : env.M_PI = Dbl.fin p)
    (hsin : env.sin_bounded) (q : ℚ) :
    ∃ (v_r v_g v_b : ℚ) (c : Color),
      env.sin (Dbl.fin q) * Dbl.fin 127 + Dbl.fin 128 = Dbl.fin v_r ∧
      env.sin (Dbl.fin q + Dbl.fin 2 * env.M_PI / Dbl.fin 3) * Dbl.fin 127 + Dbl.fin 128
        = Dbl.fin v_g ∧
      env.sin (Dbl.fin q + Dbl.fin 4 * env.M_PI / Dbl.fin 3) * Dbl.fin 127 + Dbl.fin 128
        = Dbl.fin v_b ∧
      (1 ≤ v_r ∧ v_r ≤ 255) ∧ (1 ≤ v_g ∧ v_g ≤ 255) ∧ (1 ≤ v_b ∧ v_b ≤ 255) ∧
      get_rainbow_color env (Dbl.fin q) = .ok c ∧
      1 ≤ c.r.val ∧ 1 ≤ c.g.val ∧ 1 ≤ c.b.val := by
  obtain ⟨sr, hsr, hr1, hr2⟩ := hsin q
  obtain ⟨sg, hsg, hg1, hg2⟩ := hsin (q + 2 * p / 3)
  obtain ⟨sb, hsb, hb1, hb2⟩ := hsin (q + 4 * p / 3)
  obtain ⟨hr3, hr4, cr, hcr, hcr1⟩ := rainbow_channel_in_range sr hr1 hr2
  obtain ⟨hg3, hg4, cg, hcg, hcg1⟩ := rainbow_channel_in_range sg hg1 hg2
  obtain ⟨hb3, hb4, cb, hcb, hcb1⟩ := rainbow_channel_in_range sb hb1 hb2
  have er : env.sin (Dbl.fin q) * Dbl.fin 127 + Dbl.fin 128 = Dbl.fin (sr * 127 + 128) := by
    rw [hsr, scaled_sine_fin]
  have eg : env.sin (Dbl.fin q + Dbl.fin 2 * env.M_PI / Dbl.fin 3) * Dbl.fin 127 + Dbl.fin 128
      = Dbl.fin (sg * 127 + 128) := by
    rw [hpi, phase_offset_fin, hsg, scaled_sine_fin]
  have eb : env.sin (Dbl.fin q + Dbl.fin 4 * env.M_PI / Dbl.fin 3) * Dbl.fin 127 + Dbl.fin 128
      = Dbl.fin (sb * 127 + 128) := by
    rw [hpi, phase_offset_fin, hsb, scaled_sine_fin]
  refine ⟨_, _, _, ⟨cr, cg, cb⟩, er, eg, eb, ⟨hr3, hr4⟩, ⟨hg3, hg4⟩, ⟨hb3, hb4⟩, ?_,
    hcr1, hcg1, hcb1⟩
  simp only [get_rainbow_color, er, eg, eb, hcr, hcg, hcb]
  rfl

/-- Bhaskara's approximation stays in `[0, 1]` on `[0, p]`. -/
theorem bhaskara_range (p y : ℚ) (hp : 0 < p) (h0 : 0 ≤ y) (h1 : y ≤ p) :
    0 ≤ bhaskara p y ∧ bhaskara p y ≤ 1 := by
  have hden : 0 < 5 * p * p - 4 * y * (p - y) := by nlinarith [sq_nonneg (p - 2 * y)]
  have hnum : 0 ≤ 16 * y * (p - y) := by
    have : 0 ≤ y * (p - y) := mul_nonneg h0 (by linarith)
    linarith
  refine ⟨div_nonneg hnum hden.le, ?_⟩
  rw [bhaskara, div_le_one hden]
  nlinarith [sq_nonneg (p - 2 * y)]

/-- The executable sine has values in `[-1, 1]`. -/
theorem libm_approx_sin_bounded : libm_approx.sin_bounded := by
  intro x
  have hp : (0 : ℚ) < 884279719003555 / 281474976710656 := by norm_num
  have hfl1 : ((Rat.floor (x / (2 * (884279719003555 / 281474976710656))) : Int) : ℚ)
      ≤ x / (2 * (884279719003555 / 281474976710656)) := Int.floor_le _
  have hfl2 : x / (2 * (884279719003555 / 281474976710656))
      < ((Rat.floor (x / (2 * (884279719003555 / 281474976710656))) : Int) : ℚ) + 1 :=
    Int.lt_floor_add_one _
  simp only [libm_approx]
  generalize ((Rat.floor (x / (2 * (884279719003555 / 281474976710656))) : Int) : ℚ) = n
    at hfl1 hfl2 ⊢
  generalize (884279719003555 / 281474976710656 : ℚ) = p at hp hfl1 hfl2 ⊢
  have h2p : (0 : ℚ) < 2 * p := by linarith
  rw [le_div_iff₀ h2p] at hfl1
  rw [div_lt_iff₀ h2p] at hfl2
  by_cases hy : x - 2 * p * n ≤ p
  · obtain ⟨hb0, hb1⟩ := bhaskara_range p (x - 2 * p * n) hp (by linarith) hy
    exact ⟨bhaskara p (x - 2 * p * n), by rw [if_pos hy], by linarith, hb1⟩
  · obtain ⟨hb0, hb1⟩ := bhaskara_range p (x - 2 * p * n - p) hp (by linarith) (by linarith)
    exact ⟨-(bhaskara p (x - 2 * p * n - p)), by rw [if_neg hy], by linarith, by linarith⟩

theorem rainbow_channels_in_range_witness :
    libm_approx.M_PI = Dbl.fin M_PI_value ∧ libm_approx.sin_bounded ∧
      ∃ (v_r v_g v_b : ℚ) (c : Color),
        libm_approx.sin (Dbl.fin 0) * Dbl.fin 127 + Dbl.fin 128 = Dbl.fin v_r ∧
        libm_approx.sin (Dbl.fin 0 + Dbl.fin 2 * libm_approx.M_PI / Dbl.fin 3) * Dbl.fin 127
          + Dbl.fin 128 = Dbl.fin v_g ∧
        libm_approx.sin (Dbl.fin 0 + Dbl.fin 4 * libm_approx.M_PI / Dbl.fin 3) * Dbl.fin 127
          + Dbl.fin 128 = Dbl.fin v_b ∧
        (1 ≤ v_r ∧ v_r ≤ 255) ∧ (1 ≤ v_g ∧ v_g ≤ 255) ∧ (1 ≤ v_b ∧ v_b ≤ 255) ∧
        get_rainbow_color libm_approx (Dbl.fin 0) = .ok c ∧
        1 ≤ c.r.val ∧ 1 ≤ c.g.val ∧ 1 ≤ c.b.val :=
  ⟨rfl, libm_approx_sin_bounded,
    rainbow_channels_in_range libm_approx M_PI_value rfl libm_approx_sin_bounded 0⟩

/-! ## Theorems: the period of `get_rainbow_color` -/

/-- The constant `M_PI` lies strictly below π. -/
theorem M_PI_value_lt_pi : ((M_PI_value : ℚ) : ℝ) < Real.pi := by
  have h := Real.pi_gt_d20
  have h2 : ((M_PI_value : ℚ) : ℝ) < 3.14159265358979323846 := by
    rw [M_PI_value]; push_cast; norm_num
  linarith

/-- The constant `M_PI` is within `1/10000` of π. -/
theorem pi_sub_M_PI_value_small : Real.pi - ((M_PI_value : ℚ) : ℝ) < 1 / 10000 := by
  have h := Real.pi_lt_d4
  have h2 : (3.1415 : ℝ) < ((M_PI_value : ℚ) : ℝ) := by
    rw [M_PI_value]; push_cast; norm_num
  linarith

/-- The sine is 1-Lipschitz. -/
theorem abs_sin_sub_sin_le (a b : ℝ) : |Real.sin a - Real.sin b| ≤ |a - b| := by
  rw [Real.sin_sub_sin, abs_mul, abs_mul]
  have h1 : |Real.sin ((a - b) / 2)| ≤ |(a - b) / 2| := Real.abs_sin_le_abs
  have h2 : |Real.cos ((a + b) / 2)| ≤ 1 := Real.abs_cos_le_one _
  have h3 : |(a - b) / 2| = |a - b| / 2 := by rw [abs_div]; norm_num
  have h4 : (0 : ℝ) ≤ |Real.sin ((a - b) / 2)| := abs_nonneg _
  have h5 : |(2 : ℝ)| = 2 := by norm_num
  rw [h5]
  calc 2 * |Real.sin ((a - b) / 2)| * |Real.cos ((a + b) / 2)|
      ≤ 2 * |Real.sin ((a - b) / 2)| * 1 := by
        apply mul_le_mul_of_nonneg_left h2; linarith
    _ ≤ |a - b| := by rw [h3] at h1; linarith

/-- The mathematical sine of `2 * M_PI` is negative. -/
theorem sin_two_M_PI_value_neg : Real.sin (2 * ((M_PI_value : ℚ) : ℝ)) < 0 := by
  have h1 := M_PI_value_lt_pi
  have h2 := pi_sub_M_PI_value_small
  have h3 := Real.pi_gt_three
  have h4 : Real.sin (2 * ((M_PI_value : ℚ) : ℝ))
      = Real.sin (2 * ((M_PI_value : ℚ) : ℝ) - 2 * Real.pi) := (Real.sin_sub_two_pi _).symm
  rw [h4]
  exact Real.sin_neg_of_neg_of_neg_pi_lt (by linarith) (by linarith)

/-- A value in `[0, 256)` converts to its floor. -/
theorem to_uint8_floor (v : ℚ) (h0 : 0 ≤ v) (h1 : v < 256) :
    ∃ c : uint8_t, (Dbl.fin v).to_uint8 = .ok c ∧ (c.val : Int) = ⌊v⌋ := by
  have hfl : Int.tdiv v.num v.den = ⌊v⌋ := tdiv_num_den_of_nonneg v h0
  have hf0 : 0 ≤ ⌊v⌋ := Int.floor_nonneg.mpr h0
  have hf1 : ⌊v⌋ < 256 := Int.floor_lt.mpr (by exact_mod_cast h1)
  have hrange : 0 ≤ Int.tdiv v.num v.den ∧ Int.tdiv v.num v.den < 256 := by
    rw [hfl]; exact ⟨hf0, hf1⟩
  refine ⟨⟨(Int.tdiv v.num v.den).toNat, by omega⟩, ?_, ?_⟩
  · simp only [Dbl.to_uint8]
    rw [dif_pos hrange]
  · simp only; rw [hfl]; omega

/-- A sine value of a faithful library, as a rational statement: it is within `1/1000`
of the mathematical sine and within `[-1001/1000, 1001/1000]`. -/
theorem faithful_sin (env : Libm) (h : env.faithful) (x : ℚ) :
    ∃ s : ℚ, env.sin (Dbl.fin x) = Dbl.fin s ∧
      |(s : ℝ) - Real.sin (x : ℝ)| ≤ 1 / 1000 * |Real.sin (x : ℝ)| ∧
      |(s : ℝ) - Real.sin (x : ℝ)| ≤ 1 / 1000 ∧
      -(1001 / 1000) ≤ s ∧ s ≤ 1001 / 1000 := by
  obtain ⟨s, hs, hacc⟩ := h.2 x
  have hone : |Real.sin (x : ℝ)| ≤ 1 := Real.abs_sin_le_one _
  have habs : |(s : ℝ) - Real.sin (x : ℝ)| ≤ 1 / 1000 := by
    have : 1 / 1000 * |Real.sin (x : ℝ)| ≤ 1 / 1000 := by linarith
    linarith
  have hb := abs_le.mp habs
  have hsin := abs_le.mp hone
  have hlo : (-(1001 / 1000) : ℝ) ≤ (s : ℝ) := by linarith [hb.1, hsin.1]
  have hhi : (s : ℝ) ≤ 1001 / 1000 := by linarith [hb.2, hsin.2]
  refine ⟨s, hs, hacc, habs, ?_, ?_⟩
  · have : (((-(1001 / 1000) : ℚ)) : ℝ) ≤ (s : ℝ) := by push_cast; linarith
    exact Rat.cast_le.mp this
  · have : (s : ℝ) ≤ (((1001 / 1000 : ℚ)) : ℝ) := by push_cast; linarith
    exact Rat.cast_le.mp this

/-- A faithful library exists: every real number has rationals as close as wanted. -/
theorem exists_faithful_libm : ∃ env : Libm, env.faithful := by
  have h : ∀ x : ℚ, ∃ s : ℚ,
      |(s : ℝ) - Real.sin (x : ℝ)| ≤ 1 / 1000 * |Real.sin (x : ℝ)| := by
    intro x
    by_cases h0 : Real.sin (x : ℝ) = 0
    · exact ⟨0, by simp [h0]⟩
    · have hpos : 0 < 1 / 1000 * |Real.sin (x : ℝ)| := by
        have := abs_pos.mpr h0
        positivity
      obtain ⟨s, hs1, hs2⟩ := exists_rat_btwn
        (show Real.sin (x : ℝ) - 1 / 1000 * |Real.sin (x : ℝ)|
          < Real.sin (x : ℝ) + 1 / 1000 * |Real.sin (x : ℝ)| by linarith)
      exact ⟨s, abs_le.mpr ⟨by linarith, by linarith⟩⟩
  choose f hf using h
  exact ⟨⟨fun d => match d with
    | .fin x => .fin (f x)
    | _ => .nan, .fin M_PI_value⟩, rfl, fun x => ⟨f x, rfl, hf x⟩⟩

/-- One channel of `get_rainbow_color` under a faithful library: the conversion
succeeds and gives the floor of `s * 127 + 128`. -/
theorem faithful_channel (env : Libm) (h : env.faithful) (x : ℚ) :
    ∃ (s : ℚ) (c : uint8_t), env.sin (Dbl.fin x) = Dbl.fin s ∧
      |(s : ℝ) - Real.sin (x : ℝ)| ≤ 1 / 1000 * |Real.sin (x : ℝ)| ∧
      |(s : ℝ) - Real.sin (x : ℝ)| ≤ 1 / 1000 ∧
      (env.sin (Dbl.fin x) * Dbl.fin 127 + Dbl.fin 128).to_uint8 = .ok c ∧
      (c.val : Int) = ⌊s * 127 + 128⌋ := by
  obtain ⟨s, hs, hrel, habs, hlo, hhi⟩ := faithful_sin env h x
  obtain ⟨c, hc, hcf⟩ := to_uint8_floor (s * 127 + 128) (by linarith) (by linarith)
  exact ⟨s, c, hs, hrel, habs, by rw [hs, scaled_sine_fin, hc], hcf⟩

/-- Two values less than 1 apart have floors at most 1 apart. -/
theorem floor_close (a b : ℚ) (h : a < b + 1) : ⌊a⌋ ≤ ⌊b⌋ + 1 := by
  have : ⌊a⌋ ≤ ⌊b + 1⌋ := Int.floor_mono h.le
  rwa [Int.floor_add_one] at this

/-- At phase 0, in exact arithmetic and for every faithful library, the red channel of
`get_rainbow_color(0)` is 128 and the red channel of `get_rainbow_color(0 + 2 * M_PI)` is
at most 127, because `M_PI` lies below π and the sine of `2 * M_PI` is therefore
negative; and faithful libraries exist. -/
theorem rainbow_period_fails_at_zero :
    (∃ env : Libm, env.faithful) ∧
      ∀ env : Libm, env.faithful →
        (∃ c c' : Color,
          get_rainbow_color env (Dbl.fin 0) = .ok c ∧
          get_rainbow_color env (Dbl.fin 0 + Dbl.fin 2 * env.M_PI) = .ok c' ∧
          c.r.val = 128 ∧ c'.r.val ≤ 127) ∧
        get_rainbow_color env (Dbl.fin 0) ≠
          get_rainbow_color env (Dbl.fin 0 + Dbl.fin 2 * env.M_PI) := by
  refine ⟨exists_faithful_libm, ?_⟩
  intro env h
  have hpi : env.M_PI = Dbl.fin M_PI_value := h.1
  have hphase : Dbl.fin 0 + Dbl.fin 2 * Dbl.fin M_PI_value = Dbl.fin (0 + 2 * M_PI_value) :=
    rfl
  obtain ⟨s, r, hs, hrel, _, hr, hrf⟩ := faithful_channel env h 0
  obtain ⟨_, g, _, _, _, hg, _⟩ := faithful_channel env h (0 + 2 * M_PI_value / 3)
  obtain ⟨_, b, _, _, _, hb, _⟩ := faithful_channel env h (0 + 4 * M_PI_value / 3)
  obtain ⟨s', r', hs', hrel', habs', hr', hrf'⟩ := faithful_channel env h (0 + 2 * M_PI_value)
  obtain ⟨_, g', _, _, _, hg', _⟩ :=
    faithful_channel env h (0 + 2 * M_PI_value + 2 * M_PI_value / 3)
  obtain ⟨_, b', _, _, _, hb', _⟩ :=
    faithful_channel env h (0 + 2 * M_PI_value + 4 * M_PI_value / 3)
  have hc : get_rainbow_color env (Dbl.fin 0) = .ok ⟨r, g, b⟩ := by
    simp only [get_rainbow_color, hpi, phase_offset_fin, hr, hg, hb]
    rfl
  have hc' : get_rainbow_color env (Dbl.fin 0 + Dbl.fin 2 * env.M_PI) = .ok ⟨r', g', b'⟩ := by
    simp only [get_rainbow_color, hpi, hphase, phase_offset_fin, hr', hg', hb']
    rfl
  have hs0 : s = 0 := by
    have h0 : Real.sin (((0 : ℚ)) : ℝ) = 0 := by simp
    rw [h0] at hrel
    have : |(s : ℝ) - 0| ≤ 0 := by simpa using hrel
    have : (s : ℝ) = 0 := by simpa using abs_nonpos_iff.mp this
    exact_mod_cast this
  have hr128 : r.val = 128 := by
    have : ⌊s * 127 + 128⌋ = 128 := by
      rw [hs0]; norm_num
    omega
  have hsneg : s' < 0 := by
    have hneg : Real.sin (((0 + 2 * M_PI_value : ℚ)) : ℝ) < 0 := by
      have := sin_two_M_PI_value_neg
      push_cast
      simpa using this
    have habs : |Real.sin (((0 + 2 * M_PI_value : ℚ)) : ℝ)|
        = -Real.sin (((0 + 2 * M_PI_value : ℚ)) : ℝ) := abs_of_neg hneg
    rw [habs] at hrel'
    have := (abs_le.mp hrel').2
    have : (s' : ℝ) < 0 := by linarith
    exact_mod_cast this
  have hr127 : r'.val ≤ 127 := by
    have : ⌊s' * 127 + 128⌋ < 128 := Int.floor_lt.mpr (by push_cast; linarith)
    omega
  refine ⟨⟨_, _, hc, hc', hr128, hr127⟩, ?_⟩
  rw [hc, hc']
  intro heq
  have : r = r' := by
    have := Except.ok.inj heq
    exact congrArg Color.r this
  rw [this] at hr128
  omega

/-! ## Theorems: the period of `get_rainbow_color` as the machine computes it -/

theorem rounded_id (d : Dbl) : Dbl.rounded id d = d := by
  cases d <;> rfl

/-- With a rounding that changes nothing, the rounded function is `get_rainbow_color`. -/
theorem get_rainbow_color_rounded_id (env : Libm) (phase : Dbl) :
    get_rainbow_color_rounded env id phase = get_rainbow_color env phase := by
  simp only [get_rainbow_color_rounded, get_rainbow_color, Dbl.radd, Dbl.rmul, Dbl.rdiv,
    rounded_id]

theorem round_half_even_close (r : ℚ) : |((round_half_even r : Int) : ℚ) - r| ≤ 1 / 2 := by
  have h1 : ((⌊r⌋ : Int) : ℚ) ≤ r := Int.floor_le r
  have h2 : r < ((⌊r⌋ : Int) : ℚ) + 1 := Int.lt_floor_add_one r
  unfold round_half_even
  split_ifs with ha hb hc
  · rw [abs_le]; constructor <;> linarith
  · rw [abs_le]; push_cast; constructor <;> linarith
  · rw [abs_le]; constructor <;> linarith
  · rw [abs_le]; push_cast; constructor <;> linarith

theorem round64_close (x : ℚ) : |round64 x - x| ≤ |x| / 2 ^ 53 + 1 / 2 ^ 1075 := by
  unfold round64
  split_ifs with h0
  · subst h0; simp
  · have hx : 0 < |x| := abs_pos.mpr h0
    set e := max (Int.log 2 |x|) (-1022) with he
    have hu : (0 : ℚ) < (2 : ℚ) ^ (e - 52) := by positivity
    have hclose := round_half_even_close (x / (2 : ℚ) ^ (e - 52))
    have hxe : x = x / (2 : ℚ) ^ (e - 52) * (2 : ℚ) ^ (e - 52) := by
      field_simp
    have hdiff : ((round_half_even (x / (2 : ℚ) ^ (e - 52)) : Int) : ℚ) * (2 : ℚ) ^ (e - 52) - x
        = (((round_half_even (x / (2 : ℚ) ^ (e - 52)) : Int) : ℚ) - x / (2 : ℚ) ^ (e - 52))
          * (2 : ℚ) ^ (e - 52) := by
      rw [sub_mul, ← hxe]
    rw [hdiff, abs_mul, abs_of_pos hu]
    have hstep : |((round_half_even (x / (2 : ℚ) ^ (e - 52)) : Int) : ℚ) - x / (2 : ℚ) ^ (e - 52)|
        * (2 : ℚ) ^ (e - 52) ≤ 1 / 2 * (2 : ℚ) ^ (e - 52) :=
      mul_le_mul_of_nonneg_right hclose hu.le
    refine le_trans hstep ?_
    have hsplit : (1 / 2 : ℚ) * (2 : ℚ) ^ (e - 52) = (2 : ℚ) ^ e / 2 ^ 53 := by
      rw [zpow_sub₀ (by norm_num : (2 : ℚ) ≠ 0)]
      norm_num
      ring
    rw [hsplit]
    rcases le_total (Int.log 2 |x|) (-1022) with hle | hle
    · have : e = -1022 := by rw [he]; exact max_eq_right hle
      rw [this]
      have h1 : (2 : ℚ) ^ (-1022 : Int) / 2 ^ 53 = 1 / 2 ^ 1075 := by
        rw [zpow_neg]; norm_num
      rw [h1]
      have : 0 ≤ |x| / 2 ^ 53 := by positivity
      linarith
    · have : e = Int.log 2 |x| := by rw [he]; exact max_eq_left hle
      rw [this]
      have h1 : ((2 : Nat) : ℚ) ^ Int.log 2 |x| ≤ |x| := Int.zpow_log_le_self (by norm_num) hx
      have h2 : (2 : ℚ) ^ Int.log 2 |x| / 2 ^ 53 ≤ |x| / 2 ^ 53 := by
        apply div_le_div_of_nonneg_right _ (by positivity)
        exact_mod_cast h1
      have : (0 : ℚ) ≤ 1 / 2 ^ 1075 := by positivity
      linarith

/-- The rounding to binary64 is within half a unit in the last place. -/
theorem round64_rounds_like_double : rounds_like_double round64 :=
  fun x _ => round64_close x

/-- From `2^47` on, the rounding to binary64 gives whole multiples of `1/32`. -/
theorem round64_rounds_to_thirty_seconds : rounds_to_thirty_seconds round64 := by
  intro x hx _
  have hpos : 0 < |x| := lt_of_lt_of_le (by positivity) hx
  have h0 : x ≠ 0 := abs_pos.mp hpos
  have hlog : (47 : Int) ≤ Int.log 2 |x| := by
    rw [← Int.zpow_le_iff_le_log (by norm_num) hpos]
    have : (((2 : Nat) : ℚ)) ^ (47 : Int) = 2 ^ 47 := by norm_num
    rw [this]; exact hx
  have he : (47 : Int) ≤ max (Int.log 2 |x|) (-1022) := le_trans hlog (le_max_left _ _)
  obtain ⟨k, hk⟩ : ∃ k : Nat, max (Int.log 2 |x|) (-1022) - 52 = (k : Int) - 5 :=
    ⟨(max (Int.log 2 |x|) (-1022) - 47).toNat, by omega⟩
  refine ⟨round_half_even (x / (2 : ℚ) ^ (max (Int.log 2 |x|) (-1022) - 52)) * 2 ^ k, ?_⟩
  rw [round64, if_neg h0, hk, zpow_sub₀ (by norm_num : (2 : ℚ) ≠ 0), zpow_natCast]
  push_cast
  norm_num
  ring

/-- The error of a rounding on a value of bounded size. -/
theorem rounding_error (rnd : ℚ → ℚ) (hr : rounds_like_double rnd) (x B : ℚ)
    (hx : |x| ≤ B) (hB : B ≤ 2 ^ 1023) : |rnd x - x| ≤ B / 2 ^ 53 + 1 / 2 ^ 1075 := by
  have h := hr x (le_trans hx hB)
  have : |x| / 2 ^ 53 ≤ B / 2 ^ 53 := div_le_div_of_nonneg_right hx (by positivity)
  linarith

/-- The scaled sine value as the machine computes it, `fl(fl(s * 127) + 128)`, is within
`10^-12` of `s * 127 + 128`. -/
theorem rounded_scale_close (rnd : ℚ → ℚ) (hr : rounds_like_double rnd) (s : ℚ)
    (h1 : -(1001 / 1000) ≤ s) (h2 : s ≤ 1001 / 1000) :
    |rnd (rnd (s * 127) + 128) - (s * 127 + 128)| ≤ 1 / 10 ^ 12 := by
  have ha : |s * 127| ≤ 128 := by rw [abs_le]; constructor <;> linarith
  have e1 := rounding_error rnd hr (s * 127) 128 ha (by norm_num)
  have hb : |rnd (s * 127) + 128| ≤ 257 := by
    have := abs_le.mp e1
    have := abs_le.mp ha
    rw [abs_le]
    constructor <;> norm_num at * <;> linarith
  have e2 := rounding_error rnd hr (rnd (s * 127) + 128) 257 hb (by norm_num)
  have h3 := abs_le.mp e1
  have h4 := abs_le.mp e2
  rw [abs_le]
  constructor <;> norm_num at * <;> linarith

/-- One channel as the machine computes it, for a sine value of a faithful library: the
conversion is defined and gives the floor of the rounded scaled value. -/
theorem rounded_channel (rnd : ℚ → ℚ) (hr : rounds_like_double rnd) (s : ℚ)
    (h1 : -(1001 / 1000) ≤ s) (h2 : s ≤ 1001 / 1000) :
    ∃ c : uint8_t,
      (Dbl.radd rnd (Dbl.rmul rnd (Dbl.fin s) (Dbl.fin 127)) (Dbl.fin 128)).to_uint8 = .ok c ∧
      (c.val : Int) = ⌊rnd (rnd (s * 127) + 128)⌋ := by
  have hclose := abs_le.mp (rounded_scale_close rnd hr s h1 h2)
  have hval : Dbl.radd rnd (Dbl.rmul rnd (Dbl.fin s) (Dbl.fin 127)) (Dbl.fin 128)
      = Dbl.fin (rnd (rnd (s * 127) + 128)) := rfl
  rw [hval]
  exact to_uint8_floor _ (by norm_num at *; linarith) (by norm_num at *; linarith)

/-- The constant `M_PI` is within `2 * 10^-16` of π. -/
theorem pi_sub_M_PI_value_tiny : Real.pi - ((M_PI_value : ℚ) : ℝ) < 2 / 10 ^ 16 := by
  have h := Real.pi_lt_d20
  have h2 : (3.14159265358979323847 : ℝ) - 2 / 10 ^ 16 < ((M_PI_value : ℚ) : ℝ) := by
    rw [M_PI_value]; push_cast; norm_num
  linarith

/-- One channel as the machine computes it, at two sine arguments that differ by
`2 * M_PI` up to `0.0058599`: both conversions are defined and the two channels are at
most 1 apart. -/
theorem rounded_channel_shift (env : Libm) (h : env.faithful) (rnd : ℚ → ℚ)
    (hr : rounds_like_double rnd) (x x' : ℚ)
    (hx : |x' - x - 2 * M_PI_value| ≤ 58599 / 10 ^ 7) :
    ∃ c c' : uint8_t,
      (Dbl.radd rnd (Dbl.rmul rnd (env.sin (Dbl.fin x)) (Dbl.fin 127)) (Dbl.fin 128)).to_uint8
        = .ok c ∧
      (Dbl.radd rnd (Dbl.rmul rnd (env.sin (Dbl.fin x')) (Dbl.fin 127)) (Dbl.fin 128)).to_uint8
        = .ok c' ∧
      c.val ≤ c'.val + 1 ∧ c'.val ≤ c.val + 1 := by
  obtain ⟨s, hs, _, habs, hlo, hhi⟩ := faithful_sin env h x
  obtain ⟨s', hs', _, habs', hlo', hhi'⟩ := faithful_sin env h x'
  obtain ⟨c, hc, hcf⟩ := rounded_channel rnd hr s hlo hhi
  obtain ⟨c', hc', hcf'⟩ := rounded_channel rnd hr s' hlo' hhi'
  have hv := abs_le.mp (rounded_scale_close rnd hr s hlo hhi)
  have hv' := abs_le.mp (rounded_scale_close rnd hr s' hlo' hhi')
  have hpi1 := M_PI_value_lt_pi
  have hpi2 := pi_sub_M_PI_value_tiny
  have hxr : |((x' : ℚ) : ℝ) - ((x : ℚ) : ℝ) - 2 * ((M_PI_value : ℚ) : ℝ)| ≤ 58599 / 10 ^ 7 := by
    have : ((|x' - x - 2 * M_PI_value| : ℚ) : ℝ) ≤ ((58599 / 10 ^ 7 : ℚ) : ℝ) :=
      Rat.cast_le.mpr hx
    push_cast at this
    exact this
  have hxr' := abs_le.mp hxr
  have hshift : |Real.sin ((x' : ℚ) : ℝ) - Real.sin ((x : ℚ) : ℝ)| ≤ 586 / 10 ^ 5 := by
    have h3 : Real.sin ((x' : ℚ) : ℝ) = Real.sin (((x' : ℚ) : ℝ) - 2 * Real.pi) :=
      (Real.sin_sub_two_pi _).symm
    rw [h3]
    refine le_trans (abs_sin_sub_sin_le _ _) ?_
    rw [abs_le]
    constructor <;> norm_num at * <;> linarith
  have h1 := abs_le.mp habs
  have h2 := abs_le.mp habs'
  have h3 := abs_le.mp hshift
  have hq1 : s - s' ≤ 786 / 10 ^ 5 := by
    have : ((s - s' : ℚ) : ℝ) ≤ ((786 / 10 ^ 5 : ℚ) : ℝ) := by
      push_cast; norm_num at *; linarith
    exact Rat.cast_le.mp this
  have hq2 : s' - s ≤ 786 / 10 ^ 5 := by
    have : ((s' - s : ℚ) : ℝ) ≤ ((786 / 10 ^ 5 : ℚ) : ℝ) := by
      push_cast; norm_num at *; linarith
    exact Rat.cast_le.mp this
  have hf1 : ⌊rnd (rnd (s * 127) + 128)⌋ ≤ ⌊rnd (rnd (s' * 127) + 128)⌋ + 1 :=
    floor_close _ _ (by norm_num at *; linarith)
  have hf2 : ⌊rnd (rnd (s' * 127) + 128)⌋ ≤ ⌊rnd (rnd (s * 127) + 128)⌋ + 1 :=
    floor_close _ _ (by norm_num at *; linarith)
  refine ⟨c, c', ?_, ?_, by omega, by omega⟩
  · rw [hs]; exact hc
  · rw [hs']; exact hc'

/-- The offset `k * M_PI / 3` as the machine computes it. -/
theorem rounded_offset_fin (rnd : ℚ → ℚ) (k p : ℚ) :
    Dbl.rdiv rnd (Dbl.rmul rnd (Dbl.fin k) (Dbl.fin p)) (Dbl.fin 3)
      = Dbl.fin (rnd (rnd (k * p) / 3)) := by
  show Dbl.rounded rnd (Dbl.div (Dbl.rounded rnd (Dbl.mul _ _)) _) = _
  simp [Dbl.mul, Dbl.div, Dbl.rounded]

/-- The colour as the machine computes it at a finite phase, channel by channel. -/
theorem get_rainbow_color_rounded_fin (env : Libm) (rnd : ℚ → ℚ) (q : ℚ)
    (hpi : env.M_PI = Dbl.fin M_PI_value) (r g b : uint8_t)
    (hr : (Dbl.radd rnd (Dbl.rmul rnd (env.sin (Dbl.fin q)) (Dbl.fin 127)) (Dbl.fin 128)).to_uint8
      = .ok r)
    (hg : (Dbl.radd rnd (Dbl.rmul rnd
        (env.sin (Dbl.fin (rnd (q + rnd (rnd (2 * M_PI_value) / 3))))) (Dbl.fin 127))
        (Dbl.fin 128)).to_uint8 = .ok g)
    (hb : (Dbl.radd rnd (Dbl.rmul rnd
        (env.sin (Dbl.fin (rnd (q + rnd (rnd (4 * M_PI_value) / 3))))) (Dbl.fin 127))
        (Dbl.fin 128)).to_uint8 = .ok b) :
    get_rainbow_color_rounded env rnd (Dbl.fin q) = .ok ⟨r, g, b⟩ := by
  have hadd : ∀ a c : ℚ, Dbl.radd rnd (Dbl.fin a) (Dbl.fin c) = Dbl.fin (rnd (a + c)) :=
    fun _ _ => rfl
  simp only [get_rainbow_color_rounded, hpi, rounded_offset_fin, hadd, hr, hg, hb]
  rfl

/-- The sizes of the constants `2 * M_PI`, `2 * M_PI / 3` and `4 * M_PI / 3` as the
machine computes them. -/
theorem rounded_constants (rnd : ℚ → ℚ) (hr : rounds_like_double rnd) :
    |rnd (2 * M_PI_value) - 2 * M_PI_value| ≤ 1 / 10 ^ 15 ∧
      |rnd (rnd (2 * M_PI_value) / 3)| ≤ 3 ∧ |rnd (rnd (4 * M_PI_value) / 3)| ≤ 5 := by
  have hM1 : (31415 / 10000 : ℚ) < M_PI_value := by rw [M_PI_value]; norm_num
  have hM2 : M_PI_value < (31416 / 10000 : ℚ) := by rw [M_PI_value]; norm_num
  have e2 := abs_le.mp (rounding_error rnd hr (2 * M_PI_value) 7
    (by rw [abs_le]; constructor <;> linarith) (by norm_num))
  have e4 := abs_le.mp (rounding_error rnd hr (4 * M_PI_value) 13
    (by rw [abs_le]; constructor <;> linarith) (by norm_num))
  have d2 := abs_le.mp (rounding_error rnd hr (rnd (2 * M_PI_value) / 3) 3
    (by rw [abs_le]; constructor <;> norm_num at * <;> linarith) (by norm_num))
  have d4 := abs_le.mp (rounding_error rnd hr (rnd (4 * M_PI_value) / 3) 5
    (by rw [abs_le]; constructor <;> norm_num at * <;> linarith) (by norm_num))
  refine ⟨?_, ?_, ?_⟩
  · rw [abs_le]; constructor <;> norm_num at * <;> linarith
  · rw [abs_le]; constructor <;> norm_num at * <;> linarith
  · rw [abs_le]; constructor <;> norm_num at * <;> linarith

/-- The sine arguments of one channel at `phase` and at `phase + 2 * M_PI`, as the
machine computes them with an offset `c`, differ by `2 * M_PI` up to three roundings. -/
theorem rounded_arguments_shift (rnd : ℚ → ℚ) (hr : rounds_like_double rnd) (q c : ℚ)
    (hq : |q| ≤ 2 ^ 44) (hc : |c| ≤ 5) :
    |rnd (q + rnd (2 * M_PI_value)) - q - 2 * M_PI_value| ≤ 58599 / 10 ^ 7 ∧
      |rnd (rnd (q + rnd (2 * M_PI_value)) + c) - rnd (q + c) - 2 * M_PI_value|
        ≤ 58599 / 10 ^ 7 := by
  have hM1 : (31415 / 10000 : ℚ) < M_PI_value := by rw [M_PI_value]; norm_num
  have hM2 : M_PI_value < (31416 / 10000 : ℚ) := by rw [M_PI_value]; norm_num
  have hP := abs_le.mp (rounded_constants rnd hr).1
  have hq' := abs_le.mp hq
  have hc' := abs_le.mp hc
  have e3 := abs_le.mp (rounding_error rnd hr (q + rnd (2 * M_PI_value)) (2 ^ 44 + 7)
    (by rw [abs_le]; constructor <;> norm_num at * <;> linarith) (by norm_num))
  have e2 := abs_le.mp (rounding_error rnd hr (q + c) (2 ^ 44 + 5)
    (by rw [abs_le]; constructor <;> norm_num at * <;> linarith) (by norm_num))
  have e1 := abs_le.mp (rounding_error rnd hr (rnd (q + rnd (2 * M_PI_value)) + c) (2 ^ 44 + 13)
    (by rw [abs_le]; constructor <;> norm_num at * <;> linarith) (by norm_num))
  constructor
  · rw [abs_le]; constructor <;> norm_num at * <;> linarith
  · rw [abs_le]; constructor <;> norm_num at * <;> linarith

/-- C12: under a faithful library and with every arithmetic result rounded as a
`double` is, at every finite phase of size at most `2^44` the colours
`get_rainbow_color(phase)` and `get_rainbow_color(phase + 2 * M_PI)` are both defined
and each channel of the one is at most 1 away from the same channel of the other. -/
theorem rainbow_period_tolerance (env : Libm) (h : env.faithful) (rnd : ℚ → ℚ)
    (hr : rounds_like_double rnd) (q : ℚ) (hq : |q| ≤ 2 ^ 44) :
    ∃ c c' : Color,
      get_rainbow_color_rounded env rnd (Dbl.fin q) = .ok c ∧
      get_rainbow_color_rounded env rnd (phase_plus_period env rnd (Dbl.fin q)) = .ok c' ∧
      (c.r.val ≤ c'.r.val + 1 ∧ c'.r.val ≤ c.r.val + 1) ∧
      (c.g.val ≤ c'.g.val + 1 ∧ c'.g.val ≤ c.g.val + 1) ∧
      (c.b.val ≤ c'.b.val + 1 ∧ c'.b.val ≤ c.b.val + 1) := by
  have hpi : env.M_PI = Dbl.fin M_PI_value := h.1
  have hphase : phase_plus_period env rnd (Dbl.fin q)
      = Dbl.fin (rnd (q + rnd (2 * M_PI_value))) := by
    rw [phase_plus_period, hpi]; rfl
  obtain ⟨_, hc2, hc4⟩ := rounded_constants rnd hr
  obtain ⟨hsr, hsg⟩ := rounded_arguments_shift rnd hr q _ hq (le_trans hc2 (by norm_num))
  obtain ⟨_, hsb⟩ := rounded_arguments_shift rnd hr q _ hq hc4
  obtain ⟨r, r', hr1, hr2, hr3, hr4⟩ := rounded_channel_shift env h rnd hr _ _ hsr
  obtain ⟨g, g', hg1, hg2, hg3, hg4⟩ := rounded_channel_shift env h rnd hr _ _ hsg
  obtain ⟨b, b', hb1, hb2, hb3, hb4⟩ := rounded_channel_shift env h rnd hr _ _ hsb
  refine ⟨⟨r, g, b⟩, ⟨r', g', b'⟩, ?_, ?_, ⟨hr3, hr4⟩, ⟨hg3, hg4⟩, ⟨hb3, hb4⟩⟩
  · exact get_rainbow_color_rounded_fin env rnd q hpi r g b hr1 hg1 hb1
  · rw [hphase]
    exact get_rainbow_color_rounded_fin env rnd _ hpi r' g' b' hr2 hg2 hb2

theorem rainbow_period_tolerance_witness :
    ∃ env : Libm, env.faithful ∧ rounds_like_double round64 ∧ |(2 ^ 44 : ℚ)| ≤ 2 ^ 44 ∧
      ∃ c c' : Color,
        get_rainbow_color_rounded env round64 (Dbl.fin (2 ^ 44)) = .ok c ∧
        get_rainbow_color_rounded env round64
          (phase_plus_period env round64 (Dbl.fin (2 ^ 44))) = .ok c' ∧
        (c.r.val ≤ c'.r.val + 1 ∧ c'.r.val ≤ c.r.val + 1) ∧
        (c.g.val ≤ c'.g.val + 1 ∧ c'.g.val ≤ c.g.val + 1) ∧
        (c.b.val ≤ c'.b.val + 1 ∧ c'.b.val ≤ c.b.val + 1) := by
  obtain ⟨env, henv⟩ := exists_faithful_libm
  have hq : |(2 ^ 44 : ℚ)| ≤ 2 ^ 44 := by
    rw [abs_le]; constructor <;> norm_num
  exact ⟨env, henv, round64_rounds_like_double, hq,
    rainbow_period_tolerance env henv round64 round64_rounds_like_double _ hq⟩

/-- One channel as the machine computes it is defined at every finite sine argument. -/
theorem rounded_channel_defined (env : Libm) (h : env.faithful) (rnd : ℚ → ℚ)
    (hr : rounds_like_double rnd) (x : ℚ) :
    ∃ c : uint8_t,
      (Dbl.radd rnd (Dbl.rmul rnd (env.sin (Dbl.fin x)) (Dbl.fin 127)) (Dbl.fin 128)).to_uint8
        = .ok c := by
  obtain ⟨s, hs, _, _, hlo, hhi⟩ := faithful_sin env h x
  obtain ⟨c, hc, _⟩ := rounded_channel rnd hr s hlo hhi
  exact ⟨c, by rw [hs]; exact hc⟩

/-- At `large_phase` the machine computes `phase + 2 * M_PI` as `phase + 403/64`, which
is `2^47 + 3`: the exact sum lies between two neighbouring multiples of `1/32` and this
one is the nearer. -/
theorem large_phase_plus_period (rnd : ℚ → ℚ) (hr : rounds_like_double rnd)
    (hg : rounds_to_thirty_seconds rnd) :
    rnd (large_phase + rnd (2 * M_PI_value)) = large_phase + 403 / 64 := by
  have hP := abs_le.mp (rounded_constants rnd hr).1
  have hM1 : (31415 / 10000 : ℚ) < M_PI_value := by rw [M_PI_value]; norm_num
  have hM2 : M_PI_value < (31416 / 10000 : ℚ) := by rw [M_PI_value]; norm_num
  have hy0 : (0 : ℚ) ≤ large_phase + rnd (2 * M_PI_value) := by
    rw [large_phase]; norm_num at *; linarith
  have hy1 : (2 : ℚ) ^ 47 ≤ |large_phase + rnd (2 * M_PI_value)| := by
    rw [abs_of_nonneg hy0, large_phase]; norm_num at *; linarith
  have hy2 : |large_phase + rnd (2 * M_PI_value)| ≤ large_phase + 7 := by
    rw [abs_of_nonneg hy0]; norm_num at *; linarith
  have hy3 : |large_phase + rnd (2 * M_PI_value)| ≤ 2 ^ 1023 :=
    le_trans hy2 (by rw [large_phase]; norm_num)
  obtain ⟨n, hn⟩ := hg _ hy1 hy3
  have herr := abs_le.mp (rounding_error rnd hr _ (large_phase + 7) hy2
    (by rw [large_phase]; norm_num))
  rw [hn] at herr
  have hMv : M_PI_value = 884279719003555 / 281474976710656 := rfl
  have h1 : (4503599627370591 : ℚ) < (n : ℚ) := by
    rw [large_phase, hMv] at herr
    rw [hMv] at hP
    norm_num at *
    linarith [herr.1, hP.1]
  have h2 : (n : ℚ) < 4503599627370593 := by
    rw [large_phase, hMv] at herr
    rw [hMv] at hP
    norm_num at *
    linarith [herr.2, hP.2]
  have h3 : (4503599627370591 : Int) < n := by exact_mod_cast h1
  have h4 : n < (4503599627370593 : Int) := by exact_mod_cast h2
  have h5 : n = 4503599627370592 := by omega
  rw [hn, h5, large_phase]
  norm_num

/-- The mathematical sine at `large_phase`, which is `22399066950088` whole periods
less a little more than `0.09035`. -/
theorem sin_large_phase : Real.sin ((large_phase : ℚ) : ℝ) < -(9016 / 10 ^ 5) := by
  have hlo := Real.pi_gt_d20
  have hhi := Real.pi_lt_d20
  have hper : Real.sin ((large_phase : ℚ) : ℝ)
      = Real.sin (((large_phase : ℚ) : ℝ) - (22399066950088 : Nat) * (2 * Real.pi)) :=
    (Real.sin_sub_nat_mul_two_pi _ _).symm
  have hneg : ((large_phase : ℚ) : ℝ) - (22399066950088 : Nat) * (2 * Real.pi)
      = -((22399066950088 : Nat) * (2 * Real.pi) - ((large_phase : ℚ) : ℝ)) := by ring
  have h1 : 9035 / 10 ^ 5 < (22399066950088 : Nat) * (2 * Real.pi) - ((large_phase : ℚ) : ℝ) := by
    rw [large_phase]; push_cast; norm_num at *; linarith
  have h2 : (22399066950088 : Nat) * (2 * Real.pi) - ((large_phase : ℚ) : ℝ) < 904 / 10 ^ 4 := by
    rw [large_phase]; push_cast; norm_num at *; linarith
  rw [hper, hneg, Real.sin_neg]
  generalize (22399066950088 : Nat) * (2 * Real.pi) - ((large_phase : ℚ) : ℝ) = t at h1 h2
  have ht0 : 0 < t := by norm_num at *; linarith
  have hcube : t ^ 3 ≤ (904 / 10 ^ 4) ^ 3 := pow_le_pow_left₀ ht0.le h2.le 3
  have hsin := Real.sin_gt_sub_cube ht0 (by norm_num at *; linarith)
  norm_num at *
  linarith

/-- The mathematical sine at `large_phase + 403/64`, which is `22399066950089` whole
periods less a little less than `0.07667`. -/
theorem sin_large_phase_shifted :
    -(7667 / 10 ^ 5) < Real.sin (((large_phase + 403 / 64 : ℚ)) : ℝ) ∧
      Real.sin (((large_phase + 403 / 64 : ℚ)) : ℝ) < 0 := by
  have hlo := Real.pi_gt_d20
  have hhi := Real.pi_lt_d20
  have hper : Real.sin (((large_phase + 403 / 64 : ℚ)) : ℝ)
      = Real.sin ((((large_phase + 403 / 64 : ℚ)) : ℝ)
          - (22399066950089 : Nat) * (2 * Real.pi)) :=
    (Real.sin_sub_nat_mul_two_pi _ _).symm
  have hneg : (((large_phase + 403 / 64 : ℚ)) : ℝ) - (22399066950089 : Nat) * (2 * Real.pi)
      = -((22399066950089 : Nat) * (2 * Real.pi) - (((large_phase + 403 / 64 : ℚ)) : ℝ)) := by
    ring
  have h1 : 7666 / 10 ^ 5 < (22399066950089 : Nat) * (2 * Real.pi)
      - (((large_phase + 403 / 64 : ℚ)) : ℝ) := by
    rw [large_phase]; push_cast; norm_num at *; linarith
  have h2 : (22399066950089 : Nat) * (2 * Real.pi) - (((large_phase + 403 / 64 : ℚ)) : ℝ)
      < 7667 / 10 ^ 5 := by
    rw [large_phase]; push_cast; norm_num at *; linarith
  rw [hper, hneg, Real.sin_neg]
  generalize (22399066950089 : Nat) * (2 * Real.pi) - (((large_phase + 403 / 64 : ℚ)) : ℝ) = t
    at h1 h2
  have ht0 : 0 < t := by norm_num at *; linarith
  have hpi := Real.pi_gt_three
  have hsin1 := Real.sin_lt ht0
  have hsin2 := Real.sin_pos_of_pos_of_lt_pi ht0 (by norm_num at *; linarith)
  constructor
  · norm_num at *; linarith
  · linarith

/-- At `large_phase` the claim of C12 fails by more than the tolerance, for every
faithful library and every rounding that behaves as the rounding to a `double` does:
the red channel of `get_rainbow_color(phase)` is at most 116 and the red channel of
`get_rainbow_color(phase + 2 * M_PI)` is at least 118. -/
theorem rainbow_period_fails_at_large_phase (env : Libm) (h : env.faithful) (rnd : ℚ → ℚ)
    (hr : rounds_like_double rnd) (hg : rounds_to_thirty_seconds rnd) :
    ∃ c c' : Color,
      get_rainbow_color_rounded env rnd (Dbl.fin large_phase) = .ok c ∧
      get_rainbow_color_rounded env rnd (phase_plus_period env rnd (Dbl.fin large_phase))
        = .ok c' ∧
      c.r.val ≤ 116 ∧ 118 ≤ c'.r.val := by
  have hpi : env.M_PI = Dbl.fin M_PI_value := h.1
  have hphase : phase_plus_period env rnd (Dbl.fin large_phase)
      = Dbl.fin (large_phase + 403 / 64) := by
    rw [phase_plus_period, hpi, ← large_phase_plus_period rnd hr hg]; rfl
  obtain ⟨s, hs, hrel, _, hlo, hhi⟩ := faithful_sin env h large_phase
  obtain ⟨s', hs', hrel', _, hlo', hhi'⟩ := faithful_sin env h (large_phase + 403 / 64)
  obtain ⟨r, hrc, hrf⟩ := rounded_channel rnd hr s hlo hhi
  obtain ⟨r', hrc', hrf'⟩ := rounded_channel rnd hr s' hlo' hhi'
  obtain ⟨g, hgc⟩ := rounded_channel_defined env h rnd hr
    (rnd (large_phase + rnd (rnd (2 * M_PI_value) / 3)))
  obtain ⟨b, hbc⟩ := rounded_channel_defined env h rnd hr
    (rnd (large_phase + rnd (rnd (4 * M_PI_value) / 3)))
  obtain ⟨g', hgc'⟩ := rounded_channel_defined env h rnd hr
    (rnd (large_phase + 403 / 64 + rnd (rnd (2 * M_PI_value) / 3)))
  obtain ⟨b', hbc'⟩ := rounded_channel_defined env h rnd hr
    (rnd (large_phase + 403 / 64 + rnd (rnd (4 * M_PI_value) / 3)))
  have hv := abs_le.mp (rounded_scale_close rnd hr s hlo hhi)
  have hv' := abs_le.mp (rounded_scale_close rnd hr s' hlo' hhi')
  have hsin := sin_large_phase
  obtain ⟨hsin1, hsin2⟩ := sin_large_phase_shifted
  have hs_up : s ≤ -(9006 / 10 ^ 5) := by
    have hneg : Real.sin ((large_phase : ℚ) : ℝ) < 0 := by norm_num at *; linarith
    have h1 := (abs_le.mp hrel).2
    rw [abs_of_neg hneg] at h1
    have : ((s : ℚ) : ℝ) ≤ (((-(9006 / 10 ^ 5) : ℚ)) : ℝ) := by
      push_cast; norm_num at *; linarith
    exact Rat.cast_le.mp this
  have hs_lo : -(7675 / 10 ^ 5) ≤ s' := by
    have h1 := (abs_le.mp hrel').1
    rw [abs_of_neg hsin2] at h1
    have : ((((-(7675 / 10 ^ 5) : ℚ))) : ℝ) ≤ ((s' : ℚ) : ℝ) := by
      push_cast; norm_num at *; linarith
    exact Rat.cast_le.mp this
  have hr116 : r.val ≤ 116 := by
    have : ⌊rnd (rnd (s * 127) + 128)⌋ < 117 :=
      Int.floor_lt.mpr (by push_cast; norm_num at *; linarith)
    omega
  have hr118 : 118 ≤ r'.val := by
    have : (118 : Int) ≤ ⌊rnd (rnd (s' * 127) + 128)⌋ :=
      Int.le_floor.mpr (by push_cast; norm_num at *; linarith)
    omega
  refine ⟨⟨r, g, b⟩, ⟨r', g', b'⟩, ?_, ?_, hr116, hr118⟩
  · exact get_rainbow_color_rounded_fin env rnd _ hpi r g b (by rw [hs]; exact hrc) hgc hbc
  · rw [hphase]
    exact get_rainbow_color_rounded_fin env rnd _ hpi r' g' b' (by rw [hs']; exact hrc')
      hgc' hbc'

/-- The claim of C12 fails, in two ways.  At phase 0, in exact arithmetic and for every
faithful library, the red channel is 128 at the phase and at most 127 at the phase plus
`2 * M_PI`, so the two colours differ.  At `large_phase`, just below `2^47`, for every
faithful library and every rounding that behaves as the rounding to a `double` does
(the rounding to binary64 is one), the machine computes `phase + 2 * M_PI` with an error
of about `0.014` and the red channels are at most 116 and at least 118: more than 1
apart. -/
theorem rainbow_period_fails :
    ((∃ env : Libm, env.faithful) ∧
      ∀ env : Libm, env.faithful →
        (∃ c c' : Color,
          get_rainbow_color env (Dbl.fin 0) = .ok c ∧
          get_rainbow_color env (Dbl.fin 0 + Dbl.fin 2 * env.M_PI) = .ok c' ∧
          c.r.val = 128 ∧ c'.r.val ≤ 127) ∧
        get_rainbow_color env (Dbl.fin 0) ≠
          get_rainbow_color env (Dbl.fin 0 + Dbl.fin 2 * env.M_PI)) ∧
    ((rounds_like_double round64 ∧ rounds_to_thirty_seconds round64) ∧
      ∀ (env : Libm) (rnd : ℚ → ℚ),
        env.faithful → rounds_like_double rnd → rounds_to_thirty_seconds rnd →
        ∃ c c' : Color,
          get_rainbow_color_rounded env rnd (Dbl.fin large_phase) = .ok c ∧
          get_rainbow_color_rounded env rnd (phase_plus_period env rnd (Dbl.fin large_phase))
            = .ok c' ∧
          c.r.val ≤ 116 ∧ 118 ≤ c'.r.val) :=
  ⟨rainbow_period_fails_at_zero,
    ⟨round64_rounds_like_double, round64_rounds_to_thirty_seconds⟩,
    fun env rnd h hr hg => rainbow_period_fails_at_large_phase env h rnd hr hg⟩

end cmd_color
